import Mathlib

/-!
# Verification of the `targz` random-access gzip/tar reader

This file shallow-embeds the core of the `targz` repository in Lean 4 and
settles the frozen claims C1..C10 about it.

The embedding covers:

* the `tarfs` package (first variant of `tarfs.go`): path normalization,
  index construction (`New`), `FS.ReadDir`, `File.ReadDir` pagination and
  the symlink-following `FS.open`;
* the `flate` package (`inflate.go`, given as `unnamed/part_003`): the
  `Decompressor` state machine (`nextBlock`, `dataBlock`, `copyData`,
  `huffmanBlock`, `readHuffman`, `finishBlock`, `moreBits`, `huffSym`,
  `Read`), `huffmanDecoder.init`, checkpoints, `NewReaderWithSpans` and
  `Continue`;
* the `gsip` package (`gsip.go`): `NewReader`, `Decode`, `acquireReader`
  and `ReadAt`, together with the `io.ReadFull` / `io.CopyN` helpers they
  call.

The sliding-window `dictDecoder` and the gzip framer (`gunzip.go`) are not
under `src/`; they are modelled from the specification (their doc comments
say so explicitly).  Go `int64` values are modelled as `Int`, machine words
as `Nat` with explicit `% 2^32` where Go truncates, byte values as `Nat`
below 256.  Goroutine/channel plumbing is sequentialized: a checkpoint sent
on the `updates` channel is appended to the decoder's `emitted` list, and
the gsip reader moves those entries into its `checkpoints` list, preserving
order, exactly as the consumer goroutine in `gsip.NewReader` does.
-/

set_option autoImplicit false

namespace Targz

set_option maxRecDepth 10000

/-! ## Go `strings` and `path` standard-library helpers

Faithful functional embeddings of the Go standard-library string and path
functions used by `tarfs.go`: `strings.TrimPrefix`, `strings.TrimSuffix`,
`path.Clean`, `path.Base`, `path.Dir`, `path.IsAbs`, `path.Join`. -/

/-- Byte-wise prefix test (Go `strings.HasPrefix`), over the char list so
that it evaluates inside the kernel. -/
def strHasPfx (s pre : String) : Bool := pre.data.isPrefixOf s.data

/-- Go `strings.TrimPrefix`: drop `pre` from the front of `s` when present. -/
def trimLeading (s pre : String) : String :=
  if strHasPfx s pre then s.drop pre.length else s

/-- Go `strings.TrimSuffix`: drop `suf` from the end of `s` when present. -/
def trimTrailing (s suf : String) : String :=
  if suf.data.isSuffixOf s.data then s.take (s.length - suf.length) else s

/-- One step of the `path.Clean` component stack (stack kept reversed). -/
def cleanStep (rooted : Bool) (stack : List String) (c : String) : List String :=
  if c = "" || c = "." then stack
  else if c = ".." then
    match stack with
    | [] => if rooted then [] else [".."]
    | top :: rest => if top = ".." then c :: top :: rest else rest
  else c :: stack

/-- Split a character list on `/` (Go `strings.Split(s, "/")` semantics:
the empty string yields one empty component). -/
def splitSlash : List Char → List (List Char)
  | [] => [[]]
  | c :: cs =>
    let r := splitSlash cs
    if c = '/' then [] :: r
    else
      match r with
      | [] => [[c]]
      | h :: t => (c :: h) :: t

/-- Go `path.Clean`, as the documented transformation: collapse repeated
slashes, drop `.` components, resolve `..` against preceding components
(`..` at the root is dropped; leading `..` of a relative path is kept). -/
def pathClean (p : String) : String :=
  if p = "" then "." else
  let rooted := strHasPfx p "/"
  let comps := (splitSlash p.data).map String.mk
  let stack := (comps.foldl (cleanStep rooted) []).reverse
  let out := String.intercalate "/" stack
  let out := if rooted then "/" ++ out else out
  if out = "" then "." else out

/-- Go `path.Base`: last element of the path, trailing slashes removed. -/
def pathBase (p : String) : String :=
  if p = "" then "." else
  let rev := p.data.reverse.dropWhile (· = '/')
  if rev = [] then "/" else
  String.mk (rev.takeWhile (· ≠ '/')).reverse

/-- Go `path.Dir`: everything up to and including the final slash, cleaned. -/
def pathDir (p : String) : String :=
  pathClean (String.mk ((p.data.reverse.dropWhile (· ≠ '/')).reverse))

/-- Go `path.IsAbs`. -/
def pathIsAbs (p : String) : Bool := strHasPfx p "/"

/-- Go `path.Join`: skip leading empty elements, join the rest with `/`,
then clean; all-empty input gives the empty string. -/
def pathJoin (elems : List String) : String :=
  match elems.dropWhile (· = "") with
  | [] => ""
  | rest => pathClean (String.intercalate "/" rest)

/-! ## tarfs: data model (first variant of `tarfs.go`) -/

/-- Tar entry type flags used by `tarfs.go` (`archive/tar` constants). -/
inductive TypeFlag where
  | reg
  | dir
  | symlink
  | hardlink
  | other (c : Char)
deriving DecidableEq

/-- The fields of an `archive/tar` `Header` that `tarfs.go` reads. -/
structure TarHdr where
  name : String
  typeflag : TypeFlag
  linkname : String := ""
  size : Int := 0
deriving DecidableEq

/-- `hdr.FileInfo().Name()` from `archive/tar`: `path.Base(path.Clean(name))`
for directories, `path.Base(name)` otherwise. -/
def fiName (h : TarHdr) : String :=
  if h.typeflag = TypeFlag.dir then pathBase (pathClean h.name) else pathBase h.name

/-- `tarfs.Entry`: header copy, payload offset, normalized name, parent dir. -/
structure Entry where
  hdr : TarHdr
  offset : Int
  filename : String
  dir : String
deriving DecidableEq

/-- `Entry.Name()`, which delegates to `fi.Name()`. -/
def entryName (e : Entry) : String := fiName e.hdr

/-- `tarfs.normalize` (first variant): trim one trailing `/`, then one
leading `/`, then one leading `./`. -/
def normalize (s : String) : String :=
  trimLeading (trimLeading (trimTrailing s "/") "/") "./"

/-- The entry `tarfs.New` records for one tar header at a given payload
offset: normalized name and `path.Dir` of it. -/
def mkEntry (h : TarHdr) (off : Int) : Entry :=
  let nm := normalize h.name
  { hdr := h, offset := off, filename := nm, dir := pathDir nm }

/-- `tarfs.FS`: entry table plus the precomputed directory listings.
The Go `map[string]int` name index is recovered from `files` (last entry
with a given normalized name wins, as repeated `index[name] = len(files)`
assignments do); the `dirs` map is an association list in first-appearance
order of the parent directory. -/
structure FS where
  files : List Entry
  dirs : List (String × List Entry)
deriving DecidableEq

/-- Append an entry to its parent directory's list (the
`fsys.dirs[f.dir] = append(...)` loop of `tarfs.New`). -/
def addToDirs (m : List (String × List Entry)) (e : Entry) :
    List (String × List Entry) :=
  match m with
  | [] => [(e.dir, [e])]
  | (d, es) :: rest =>
    if d = e.dir then (d, es ++ [e]) :: rest else (d, es) :: addToDirs rest e

/-- Byte-wise lexicographic order on strings, the order `cmp.Compare`
imposes on Go strings (UTF-8 byte order equals code-point order). -/
def charsLe : List Char → List Char → Bool
  | [], _ => true
  | _ :: _, [] => false
  | a :: as, b :: bs =>
    if a.toNat < b.toNat then true
    else if a.toNat = b.toNat then charsLe as bs
    else false

/-- Lexicographic order on strings (kernel-evaluable). -/
def strLe (a b : String) : Bool := charsLe a.data b.data

/-- Insert an entry into a list sorted by `Name()` (ascending). -/
def insertEntry (e : Entry) : List Entry → List Entry
  | [] => [e]
  | x :: xs =>
    if strLe (entryName e) (entryName x) then e :: x :: xs else x :: insertEntry e xs

/-- The `slices.SortFunc(files, cmp.Compare(a.Name(), b.Name()))` call of
`tarfs.New`, modelled as insertion sort (same comparator; `SortFunc` is
unstable, so any sorted arrangement of the same entries is faithful). -/
def sortEntries (es : List Entry) : List Entry := es.foldr insertEntry []

/-- `tarfs.New`, over the header/offset sequence the tar scan yields:
record every entry, then build and sort each directory listing. -/
def tarfsNew (hdrs : List (TarHdr × Int)) : FS :=
  let files := hdrs.map fun p => mkEntry p.1 p.2
  { files := files
    dirs := (files.foldl addToDirs []).map fun p => (p.1, sortEntries p.2) }

/-- The Go name index (`fsys.index`): the last recorded entry with this
normalized name, if any (`fsys.Entry`). -/
def idxLookup (files : List Entry) (name : String) : Option Entry :=
  (files.filter fun e => e.filename = name).getLast?

/-- Errors surfaced by the tarfs operations we model. -/
inductive TarErr where
  | notExist
  | tooManySymlinks
  | eofErr
deriving DecidableEq

/-- `FS.ReadDir`: the precomputed listing, or an empty slice and nil error
when the name is not a key of `dirs`. -/
def fsReadDir (fs : FS) (name : String) : List Entry × Option TarErr :=
  match fs.dirs.lookup name with
  | none => ([], none)
  | some l => (l, none)

/-- `File.ReadDir(n)` (first variant): cursor-paginated view of
`fsys.ReadDir(f.Entry.Filename)`.  Returns the entries, the error, and the
updated cursor. -/
def fileReadDir (fs : FS) (filename : String) (cursor : Nat) (n : Int) :
    List Entry × Option TarErr × Nat :=
  if n = 0 then ([], none, cursor) else
  let dir := (fsReadDir fs filename).1
  if dir.length ≤ cursor then
    if n < 0 then ([], none, cursor) else ([], some TarErr.eofErr, cursor)
  else if 0 < n ∧ (n : Int) < (dir.length : Int) - (cursor : Int) then
    ((dir.drop cursor).take n.toNat, none, cursor + n.toNat)
  else
    (dir.drop cursor, none, dir.length)

/-- Run a sequence of `File.ReadDir` requests against one handle, collecting
each returned slice in order (the "successive calls" of the spec). -/
def runReadDir (fs : FS) (filename : String) (cursor : Nat) :
    List Int → List (List Entry) × Nat
  | [] => ([], cursor)
  | n :: rest =>
    let r := fileReadDir fs filename cursor n
    let t := runReadDir fs filename r.2.2 rest
    (r.1 :: t.1, t.2)

/-- `maxHops` from `tarfs.go`. -/
def maxHops : Nat := 255

/-- The `dirs(name)` iterator of `tarfs.go`: every proper prefix of `name`
that ends just before a `/`, shortest first. -/
def properPrefixes (name : String) : List String :=
  let cs := name.data
  (List.range cs.length).filterMap fun i =>
    if cs.getD i ' ' = '/' then some (String.mk (cs.take i)) else none

/-- The symlinked-ancestor scan in `FS.open`'s not-found branch: the first
proper prefix directory that exists in the index and is a symlink. -/
def findSymlinkDir (fs : FS) (name : String) : Option (Entry × String) :=
  (properPrefixes name).findSome? fun d =>
    match idxLookup fs.files d with
    | some a => if a.hdr.typeflag = TypeFlag.symlink then some (a, d) else none
    | none => none

/-- Result of `FS.open`. -/
inductive OpenRes where
  | ok (e : Entry)
  | err (t : TarErr)
deriving DecidableEq

/-- Whether an `OpenRes` is a successful open. -/
def OpenRes.isOk : OpenRes → Bool
  | OpenRes.ok _ => true
  | OpenRes.err _ => false

/-- Structural-fuel body of `FS.open`.  The fuel tracks `maxHops + 2 - hops`
along every call chain, so the fuel-exhaustion branch is reached only when
`hops > maxHops` already holds, and returning `tooManySymlinks` there keeps
the function extensionally equal to the Go recursion (`openAux_guard` below
proves the guard is what actually decides). -/
def openAux (fs : FS) : Nat → String → Nat → OpenRes × Nat
  | 0, _, _ => (OpenRes.err TarErr.tooManySymlinks, 1)
  | fuel + 1, name, hops =>
    if maxHops < hops then (OpenRes.err TarErr.tooManySymlinks, 1) else
    match idxLookup fs.files name with
    | none =>
      match findSymlinkDir fs name with
      | some (a, d) =>
        let rest := trimLeading name d
        let link := a.hdr.linkname
        let tgt :=
          if pathIsAbs link then normalize (pathJoin [link, rest])
          else pathJoin [a.dir, link, rest]
        let r := openAux fs fuel tgt (hops + 1)
        (r.1, r.2 + 1)
      | none => (OpenRes.err TarErr.notExist, 1)
    | some e =>
      match e.hdr.typeflag with
      | TypeFlag.symlink =>
        let link := e.hdr.linkname
        let tgt := if pathIsAbs link then normalize link else pathJoin [e.dir, link]
        let r := openAux fs fuel tgt (hops + 1)
        (r.1, r.2 + 1)
      | TypeFlag.hardlink =>
        let r := openAux fs fuel (normalize e.hdr.linkname) (hops + 1)
        (r.1, r.2 + 1)
      | _ => (OpenRes.ok e, 1)

/-- `FS.open(name, hops)` of `tarfs.go`, also counting the total number of
`open` invocations performed (the returned `Nat`, this call included). -/
def openHops (fs : FS) (name : String) (hops : Nat) : OpenRes × Nat :=
  openAux fs (maxHops + 2 - hops) name hops

/-- Order relation used by `tarfs.New`'s sort: ascending `Name()`. -/
def nameLe (a b : Entry) : Prop := strLe (entryName a) (entryName b) = true

instance : DecidableRel nameLe := fun a b => by
  unfold nameLe; infer_instance

/-! ### Concrete tarfs instances used by the claim theorems -/

/-- An archive whose single member is a symlink pointing at itself. -/
def exCycleFS : FS :=
  tarfsNew [({name := "loop", typeflag := TypeFlag.symlink, linkname := "loop"}, 0)]

/-- An archive with two colliding regular members named `a`. -/
def exDupFS : FS :=
  tarfsNew [({name := "a", typeflag := TypeFlag.reg, linkname := ""}, 0),
            ({name := "a", typeflag := TypeFlag.reg, linkname := ""}, 512)]

/-- An archive with three top-level regular members, for pagination runs. -/
def exPageFS : FS :=
  tarfsNew [({name := "b", typeflag := TypeFlag.reg, linkname := ""}, 0),
            ({name := "a", typeflag := TypeFlag.reg, linkname := ""}, 512),
            ({name := "c", typeflag := TypeFlag.reg, linkname := ""}, 1024)]

/-- An archive with a single regular file `top/file`, for `ReadDir` of
names that are not parents. -/
def exLoneFS : FS :=
  tarfsNew [({name := "top", typeflag := TypeFlag.dir, linkname := ""}, 0),
            ({name := "top/file", typeflag := TypeFlag.reg, linkname := ""}, 512)]

/-! ## flate: sliding window (`dictDecoder`)

`dict_decoder.go` is not under `src/`; the definitions in this section are
*modelled from the spec*: §3 ("`history`: exact contents of the 32 KiB
sliding window at this moment, plus its circular-buffer cursor (`wr_pos`,
`rd_pos`, `full` flag)") and §9 ("The sliding window is a fixed 32 KiB byte
array plus three small scalars"), with the operation semantics that
`inflate.go` (which is under `src/`) relies on: `writeByte` appends at the
write cursor, `writeSlice`/`writeMark` expose the free tail for bulk
writes, `writeCopy`/`tryWriteCopy` service LZ77 back-references, and
`readFlush` returns the bytes between the read and write cursors, resetting
both to the start of the buffer once the window fills. -/

/-- `windowSize`/`maxMatchOffset` from `inflate.go`: 32 KiB. -/
def windowSize : Nat := 32768

/-- Modelled from the spec: the 32 KiB sliding window with its circular
cursors (`dict_decoder.go` is not under `src/`).  The window's bytes are
represented as the function `hist : Nat → Nat` on indices `< windowSize`
(extensionally the fixed 32 KiB byte array of the spec; Go's in-place
mutation becomes pointwise update). -/
structure DictDecoder where
  hist : Nat → Nat
  wrPos : Nat
  rdPos : Nat
  full : Bool

/-- Modelled from the spec: a fresh window of 32 KiB zero bytes. -/
def DictDecoder.initNew : DictDecoder :=
  { hist := fun _ => 0, wrPos := 0, rdPos := 0, full := false }

/-- Modelled from the spec: bytes of usable history. -/
def DictDecoder.histSize (d : DictDecoder) : Nat :=
  if d.full then windowSize else d.wrPos

/-- Modelled from the spec: bytes written but not yet flushed. -/
def DictDecoder.availRead (d : DictDecoder) : Nat := d.wrPos - d.rdPos

/-- Modelled from the spec: free space before the window is full. -/
def DictDecoder.availWrite (d : DictDecoder) : Nat := windowSize - d.wrPos

/-- Modelled from the spec: write one byte at the write cursor. -/
def DictDecoder.writeByte (d : DictDecoder) (c : Nat) : DictDecoder :=
  { d with hist := fun i => if i = d.wrPos then c else d.hist i,
           wrPos := d.wrPos + 1 }

/-- Modelled from the spec: bulk write at the write cursor (the
`writeSlice`/`io.ReadFull`/`writeMark` sequence of `copyData`). -/
def DictDecoder.writeBytes (d : DictDecoder) (bs : List Nat) : DictDecoder :=
  { d with hist := fun i =>
             if d.wrPos ≤ i ∧ i < d.wrPos + bs.length then bs.getD (i - d.wrPos) 0
             else d.hist i,
           wrPos := d.wrPos + bs.length }

/-- Modelled from the spec: flush `hist[rdPos:wrPos]`; once the window is
full, both cursors wrap to 0 and the `full` flag is set. -/
def DictDecoder.readFlush (d : DictDecoder) : List Nat × DictDecoder :=
  let toRead := (List.range (d.wrPos - d.rdPos)).map (fun k => d.hist (d.rdPos + k))
  if d.wrPos = windowSize then
    (toRead, { d with rdPos := 0, wrPos := 0, full := true })
  else
    (toRead, { d with rdPos := d.wrPos })

/-- Go `copy(hist[dstPos:dstPos+amt], hist[srcPos:srcPos+amt])` (the source
region ends at or before the destination position, so no overlap). -/
def histCopy (hist : Nat → Nat) (dstPos srcPos amt : Nat) : Nat → Nat :=
  fun i => if dstPos ≤ i ∧ i < dstPos + amt then hist (srcPos + (i - dstPos)) else hist i

/-- The forward-copy loop shared by `writeCopy` and `tryWriteCopy`: repeat
`dstPos += copy(hist[dstPos:endPos], hist[srcPos:dstPos])`.  Each round
copies `min (endPos - dstPos) (dstPos - srcPos)` bytes, so the fuel
`length + 1` always suffices when `srcPos < dstPos` (back-reference
distance at least one, which `huffmanBlock` guarantees). -/
def writeCopyLoop (hist : Nat → Nat) (srcPos : Nat) :
    Nat → Nat → Nat → (Nat → Nat) × Nat
  | dstPos, _, 0 => (hist, dstPos)
  | dstPos, endPos, fuel + 1 =>
    if dstPos < endPos then
      let amt := min (endPos - dstPos) (dstPos - srcPos)
      if amt = 0 then (hist, dstPos)
      else writeCopyLoop (histCopy hist dstPos srcPos amt) srcPos (dstPos + amt) endPos fuel
    else (hist, dstPos)

/-- Modelled from the spec: LZ77 backwards copy, with the wrap-around
pre-copy when the source start lies before the buffer start. -/
def DictDecoder.writeCopy (d : DictDecoder) (dist length : Nat) : Nat × DictDecoder :=
  let dstBase := d.wrPos
  let endPos := min (dstBase + length) windowSize
  if d.wrPos < dist then
    let srcPos := windowSize + d.wrPos - dist
    let amt := min (endPos - dstBase) (windowSize - srcPos)
    let hist1 := histCopy d.hist dstBase srcPos amt
    let r := writeCopyLoop hist1 0 (dstBase + amt) endPos (length + 1)
    (r.2 - dstBase, { d with hist := r.1, wrPos := r.2 })
  else
    let srcPos := d.wrPos - dist
    let r := writeCopyLoop d.hist srcPos dstBase endPos (length + 1)
    (r.2 - dstBase, { d with hist := r.1, wrPos := r.2 })

/-- Modelled from the spec: the fast non-wrapping copy; returns 0 (leaving
the window untouched) when it would wrap or overflow. -/
def DictDecoder.tryWriteCopy (d : DictDecoder) (dist length : Nat) : Nat × DictDecoder :=
  let dstPos := d.wrPos
  let endPos := dstPos + length
  if dstPos < dist ∨ windowSize < endPos then (0, d)
  else
    let srcPos := dstPos - dist
    let r := writeCopyLoop d.hist srcPos dstPos endPos (length + 1)
    (r.2 - dstPos, { d with hist := r.1, wrPos := r.2 })

/-! ## flate: Huffman decoding tables (`huffmanDecoder`, from `inflate.go`) -/

/-- `bits.Reverse16`. -/
def rev16 (x : Nat) : Nat :=
  (List.range 16).foldl (fun acc i => acc ||| (((x >>> i) &&& 1) <<< (15 - i))) 0

/-- `bits.Reverse8`. -/
def rev8 (x : Nat) : Nat :=
  (List.range 8).foldl (fun acc i => acc ||| (((x >>> i) &&& 1) <<< (7 - i))) 0

/-- `huffmanDecoder`: two-level chunked lookup table
(`huffmanChunkBits = 9`, 512 direct chunks, link tables for longer codes;
`chunk &&& 15` is the code length, `chunk >>> 4` the value).  The chunk
array and the link tables are represented as functions on their index
ranges (Go's in-place stores become pointwise updates; a link table's
`make` allocation is the zero function). -/
structure HuffDec where
  min : Nat
  chunks : Nat → Nat
  links : Nat → Nat → Nat
  linkMask : Nat

/-- Pointwise store into a table. -/
def tblSet (t : Nat → Nat) (i v : Nat) : Nat → Nat :=
  fun j => if j = i then v else t j

/-- Pointwise store of one whole link table. -/
def lnkSet (l : Nat → Nat → Nat) (v : Nat) (t : Nat → Nat) : Nat → Nat → Nat :=
  fun a => if a = v then t else l a

/-- The zero `huffmanDecoder` struct. -/
def emptyHuff : HuffDec :=
  { min := 0, chunks := fun _ => 0, links := fun _ _ => 0, linkMask := 0 }

/-- Result of `huffmanDecoder.init`.  With the compiled-in `sanity = true`,
an incomplete coding does not reach the `return false` path (`bad`): the
function panics instead (`panicked "coding incomplete"`), as do the
internal table-consistency assertions. -/
inductive InitRes where
  | ok (h : HuffDec)
  | bad
  | panicked (msg : String)

/-- Whether table construction succeeded. -/
def InitRes.isOk : InitRes → Bool
  | InitRes.ok _ => true
  | _ => false

/-- The length-count / min / max loop of `huffmanDecoder.init`. -/
def countLengths (lengths : List Nat) : List Nat × Nat × Nat :=
  lengths.foldl
    (fun acc n =>
      if n = 0 then acc
      else (acc.1.set n (acc.1.getD n 0 + 1),
            (if acc.2.1 = 0 ∨ n < acc.2.1 then n else acc.2.1),
            max acc.2.2 n))
    (List.replicate 16 0, 0, 0)

/-- The canonical-code assignment loop: `code <<= 1; nextcode[i] = code;
code += count[i]` for `i` from `min` to `max`, returning `nextcode` and the
final `code`. -/
def buildNextcode (count : List Nat) (mn mx : Nat) : List Nat × Nat :=
  (List.range (mx + 1 - mn)).foldl
    (fun acc k =>
      let i := mn + k
      let code := acc.2 <<< 1
      (acc.1.set i code, code + count.getD i 0))
    (List.replicate 16 0, 0)

/-- The strided table-filling loop of `init` (`for off := reverse;
off < size; off += step`), with the `sanity` overwrite check.  `size` is
the table's length: 512 for the direct chunks, `numLinks` for a link
table. -/
def fillStride (size : Nat) : (Nat → Nat) → Nat → Nat → Nat → Nat → Except String (Nat → Nat)
  | tbl, _, _, _, 0 => Except.ok tbl
  | tbl, off, step, val, fuel + 1 =>
    if off < size then
      if tbl off ≠ 0 then Except.error "impossible: overwriting existing chunk"
      else fillStride size (tblSet tbl off val) (off + step) step val fuel
    else Except.ok tbl

/-- The link-table setup loop of `init` (`for j := link; j < 512; j++`):
mark each indirect chunk; the `make([]uint32, numLinks)` allocations are
zero tables and need no store. -/
def setupLinksGo (link : Nat) : (Nat → Nat) → Nat → Nat → Except String (Nat → Nat)
  | chunks, _, 0 => Except.ok chunks
  | chunks, j, fuel + 1 =>
    if j < 512 then
      let reverse := rev16 j >>> 7
      let off := j - link
      if chunks reverse ≠ 0 then
        Except.error "impossible: overwriting existing chunk"
      else
        setupLinksGo link (tblSet chunks reverse ((off <<< 4) ||| 10)) (j + 1) fuel
    else Except.ok chunks

/-- The per-symbol chunk-assignment loop of `init`, over the indexed
lengths, threading `nextcode`.  `numLinks` is each link table's length. -/
def assignGo (numLinks : Nat) :
    (Nat → Nat) → (Nat → Nat → Nat) → List Nat → List (Nat × Nat) →
      Except String ((Nat → Nat) × (Nat → Nat → Nat))
  | chunks, links, _, [] => Except.ok (chunks, links)
  | chunks, links, nextcode, (i, n) :: rest =>
    if n = 0 then assignGo numLinks chunks links nextcode rest
    else
      let code := nextcode.getD n 0
      let nextcode := nextcode.set n (code + 1)
      let chunk := (i <<< 4) ||| n
      let reverse := rev16 code >>> (16 - n)
      if n ≤ 9 then
        match fillStride 512 chunks reverse (1 <<< n) chunk 513 with
        | Except.error e => Except.error e
        | Except.ok chunks2 => assignGo numLinks chunks2 links nextcode rest
      else
        let j := reverse &&& 511
        if (chunks j) &&& 15 ≠ 10 then
          Except.error "impossible: not an indirect chunk"
        else
          let value := (chunks j) >>> 4
          match fillStride numLinks (links value) (reverse >>> 9) (1 <<< (n - 9)) chunk
              (numLinks + 1) with
          | Except.error e => Except.error e
          | Except.ok linktab2 =>
            assignGo numLinks chunks (lnkSet links value linktab2) nextcode rest

/-- The final `sanity` completeness scan of `init`: no direct chunk may be
empty (odd chunks excepted in the degenerate single-code case), and no
entry of the `linkCount = 512 - link` link tables may be empty. -/
def finalScanOk (chunks : Nat → Nat) (links : Nat → Nat → Nat)
    (code linkCount numLinks : Nat) : Bool :=
  ((List.range 512).all fun i => chunks i ≠ 0 ∨ (code = 1 ∧ i % 2 = 1))
  && (List.range linkCount).all fun t => (List.range numLinks).all fun i => links t i ≠ 0

/-- `huffmanDecoder.init` (with `sanity = true` compiled in, so an
incomplete coding and any internal inconsistency panic; the `return false`
path is dead).  The `if h.min != 0` reset makes every call start from the
zero struct, which this pure function does unconditionally. -/
def huffInit (lengths : List Nat) : InitRes :=
  let c := countLengths lengths
  let count := c.1
  let mn := c.2.1
  let mx := c.2.2
  if mx = 0 then InitRes.ok emptyHuff
  else
    let nc := buildNextcode count mn mx
    let nextcode := nc.1
    let code := nc.2
    if code ≠ (1 <<< mx) ∧ ¬ (code = 1 ∧ mx = 1) then
      InitRes.panicked "coding incomplete"
    else
      let numLinks := if 9 < mx then 1 <<< (mx - 9) else 0
      let link := if 9 < mx then nextcode.getD 10 0 >>> 1 else 512
      let setup : Except String (Nat → Nat) :=
        if 9 < mx then setupLinksGo link (fun _ => 0) link (512 + 1 - link)
        else Except.ok (fun _ => 0)
      match setup with
      | Except.error e => InitRes.panicked e
      | Except.ok chunks0 =>
        match assignGo numLinks chunks0 (fun _ _ => 0) nextcode lengths.enum with
        | Except.error e => InitRes.panicked e
        | Except.ok r =>
          if finalScanOk r.1 r.2 code (512 - link) numLinks then
            InitRes.ok { min := mn, chunks := r.1, links := r.2,
                         linkMask := if 9 < mx then numLinks - 1 else 0 }
          else InitRes.panicked "impossible: missing chunk"

/-- The RFC 1951 §3.2.6 fixed literal/length code lengths
(`fixedHuffmanDecoderInit`). -/
def fixedLengths : List Nat :=
  List.replicate 144 8 ++ List.replicate 112 9 ++ List.replicate 24 7
    ++ List.replicate 8 8

/-- The process-global `fixedHuffmanDecoder`. -/
def fixedHuffmanDecoder : HuffDec :=
  match huffInit fixedLengths with
  | InitRes.ok h => h
  | _ => emptyHuff

/-! ## flate: the `Decompressor` (from `inflate.go`) -/

/-- Errors of the decompression pipeline.  `eof` is `io.EOF`,
`unexpectedEof` is `io.ErrUnexpectedEOF` (`noEOF` maps `io.EOF` to it),
`corrupt off` is `CorruptInputError(off)`, `internal` is
`InternalError`/fuel exhaustion (unreachable on real traces), and
`panicked` records a Go `panic` (which aborts the process; the model
latches it as a distinguishable terminal error). -/
inductive Ferr where
  | eof
  | unexpectedEof
  | corrupt (off : Int)
  | internal (msg : String)
  | panicked (msg : String)
  | generic (msg : String)
deriving DecidableEq

/-- `flate.Checkpoint` (the gzip-header annotation is omitted from the
model; no claim concerns its contents). -/
structure Checkpoint where
  In : Int := 0
  Out : Int := 0
  B : Nat := 0
  NB : Nat := 0
  Hist : Nat → Nat := fun _ => 0
  WrPos : Nat := 0
  RdPos : Nat := 0
  Full : Bool := false
  Empty : Bool := false

/-- The `f.step` function pointer of the `Decompressor`. -/
inductive Step where
  | nextBlock
  | huffmanBlk
  | copyDataStep
deriving DecidableEq

/-- `flate.Decompressor`.  The input reader is modelled as the byte list
`src` with cursor `rpos`; `roffset`/`woffset` are the Go `int64` offset
fields; `b`/`nb` the bit buffer; `hlFixed` says whether `f.hl` points at
the global fixed table (else `&f.h1`), `hdNone` whether `f.hd` is nil.
The `updates` channel is a flag plus the `emitted` list of checkpoints
sent so far; `span`/`last` as in the source. -/
structure Decomp where
  src : List Nat
  rpos : Nat
  roffset : Int
  woffset : Int
  b : Nat
  nb : Nat
  h1 : HuffDec
  h2 : HuffDec
  bits : List Nat
  codebits : List Nat
  dict : DictDecoder
  step : Step
  stepState : Nat
  final : Bool
  err : Option Ferr
  toRead : List Nat
  hlFixed : Bool
  hdNone : Bool
  copyLen : Nat
  copyDist : Nat
  span : Int
  last : Int
  updates : Bool
  emitted : List Checkpoint

/-- `f.r.ReadByte()`: the next byte of `src`, or end of input. -/
def readByteF (f : Decomp) : Option (Nat × Decomp) :=
  if f.rpos < f.src.length then
    some (f.src.getD f.rpos 0, { f with rpos := f.rpos + 1 })
  else none

/-- `Decompressor.moreBits`: read one byte into the top of the bit
buffer (`b |= uint32(c) << nb; nb += 8`), `io.EOF` becoming
`io.ErrUnexpectedEOF` via `noEOF`. -/
def moreBits (f : Decomp) : Decomp × Option Ferr :=
  match readByteF f with
  | none => (f, some Ferr.unexpectedEof)
  | some (c, f1) =>
    ({ f1 with roffset := f1.roffset + 1,
               b := (f1.b ||| ((c <<< f1.nb) % 4294967296)) % 4294967296,
               nb := f1.nb + 8 }, none)

/-- A `for f.nb < n { moreBits }` loop.  Each round adds 8 bits, so fuel
`n` suffices for every reachable call (`n ≤ 14`). -/
def ensureBitsGo (n : Nat) : Nat → Decomp → Decomp × Option Ferr
  | 0, f => (f, none)
  | fuel + 1, f =>
    if f.nb < n then
      match moreBits f with
      | (f1, some e) => (f1, some e)
      | (f1, none) => ensureBitsGo n fuel f1
    else (f, none)

/-- Ensure at least `n` bits are buffered. -/
def ensureBits (f : Decomp) (n : Nat) : Decomp × Option Ferr :=
  ensureBitsGo n n f

/-- `Decompressor.huffSym` (with the inlined `moreBits`): decode one
Huffman symbol via the chunk table, reading bytes as needed.  The locals
`n`, `b`, `nb` are threaded explicitly and written back to the state at
every exit, as the source does.  Termination: every round either returns
or reads a byte (`nb + 8`); since code lengths are at most 15, fuel 8 is
ample. -/
def huffSymGo (h : HuffDec) : Nat → Decomp → Nat → Nat → Nat → Decomp × (Nat ⊕ Ferr)
  | 0, f, _, b, nb => ({ f with b := b, nb := nb }, Sum.inr (Ferr.internal "huffSym fuel"))
  | fuel + 1, f, n, b, nb =>
    if nb < n then
      match readByteF f with
      | none => ({ f with b := b, nb := nb }, Sum.inr Ferr.unexpectedEof)
      | some (c, f1) =>
        huffSymGo h fuel { f1 with roffset := f1.roffset + 1 } n
          ((b ||| ((c <<< (nb % 32)) % 4294967296)) % 4294967296) (nb + 8)
    else
      let chunk0 := h.chunks (b &&& 511)
      let n1 := chunk0 &&& 15
      let chunk :=
        if 9 < n1 then h.links (chunk0 >>> 4) ((b >>> 9) &&& h.linkMask)
        else chunk0
      let n2 := if 9 < n1 then chunk &&& 15 else n1
      if n2 ≤ nb then
        if n2 = 0 then
          ({ f with b := b, nb := nb, err := some (Ferr.corrupt f.roffset) },
            Sum.inr (Ferr.corrupt f.roffset))
        else
          ({ f with b := b >>> (n2 % 32), nb := nb - n2 }, Sum.inl (chunk >>> 4))
      else huffSymGo h fuel f n2 b nb

/-- Entry point of `huffSym`: start from `n := h.min` and the state's bit
buffer. -/
def huffSym (f : Decomp) (h : HuffDec) : Decomp × (Nat ⊕ Ferr) :=
  huffSymGo h 8 f h.min f.b f.nb

/-- `codeOrder` from RFC 1951 §3.2.7. -/
def codeOrder : List Nat := [16, 17, 18, 0, 8, 7, 9, 6, 10, 5, 11, 4, 12, 3, 13, 2, 14, 1, 15]

/-- `Decompressor.finishBlock`: final-block flush, conditional checkpoint
emission (`updates != nil && woffset - last > span`, with a copied
history), then arm `nextBlock`. -/
def finishBlock (f : Decomp) : Decomp :=
  let fw : Decomp × Int :=
    if f.final then
      if 0 < f.dict.availRead then
        let r := f.dict.readFlush
        ({ f with toRead := r.1, dict := r.2, err := some Ferr.eof },
          f.woffset + r.1.length)
      else ({ f with err := some Ferr.eof }, f.woffset)
    else (f, f.woffset)
  let f1 := fw.1
  let woff := fw.2
  let f2 :=
    if f1.updates ∧ f1.span < woff - f1.last then
      let ck : Checkpoint :=
        { In := f1.roffset, Out := woff, B := f1.b, NB := f1.nb,
          Hist := f1.dict.hist, WrPos := f1.dict.wrPos, RdPos := f1.dict.rdPos,
          Full := f1.dict.full }
      { f1 with emitted := f1.emitted ++ [ck], last := woff }
    else f1
  { f2 with step := Step.nextBlock }

/-- `Decompressor.copyData`: fill the free window tail from the input,
flush when the window is full or bytes remain, else finish the block. -/
def copyData (f : Decomp) : Decomp :=
  let m := min f.dict.availWrite f.copyLen
  let avail := f.src.length - f.rpos
  let cnt := min m avail
  let bytes := (f.src.drop f.rpos).take cnt
  let f1 := { f with rpos := f.rpos + cnt, roffset := f.roffset + cnt,
                     copyLen := f.copyLen - cnt,
                     dict := f.dict.writeBytes bytes }
  if cnt < m then { f1 with err := some Ferr.unexpectedEof }
  else if f1.dict.availWrite = 0 ∨ 0 < f1.copyLen then
    let r := f1.dict.readFlush
    { f1 with toRead := r.1, dict := r.2, step := Step.copyDataStep }
  else finishBlock f1

/-- `Decompressor.dataBlock`: discard the partial byte, read LEN/NLEN,
check the complement, then stored-block copy (an empty stored block
flushes pending history and finishes). -/
def dataBlock (f : Decomp) : Decomp :=
  let f := { f with nb := 0, b := 0 }
  let avail := f.src.length - f.rpos
  let nr := min 4 avail
  let bytes := (f.src.drop f.rpos).take nr
  let f := { f with rpos := f.rpos + nr, roffset := f.roffset + nr }
  if nr < 4 then { f with err := some Ferr.unexpectedEof }
  else
    let n := bytes.getD 0 0 + (bytes.getD 1 0) * 256
    let nn := bytes.getD 2 0 + (bytes.getD 3 0) * 256
    if nn ≠ 65535 - n then { f with err := some (Ferr.corrupt f.roffset) }
    else if n = 0 then
      let r := f.dict.readFlush
      finishBlock { f with toRead := r.1, dict := r.2 }
    else copyData { f with copyLen := n }

/-- The length-code lookup of `huffmanBlock` (`readLiteral`): the base
length and the count of extra bits for symbol `v` (`257 ≤ v < 286`). -/
def lenCode (v : Nat) : Nat × Nat :=
  if v < 265 then (v - 254, 0)
  else if v < 269 then (v * 2 - 519, 1)
  else if v < 273 then (v * 4 - 1057, 2)
  else if v < 277 then (v * 8 - 2149, 3)
  else if v < 281 then (v * 16 - 4365, 4)
  else if v < 285 then (v * 32 - 8861, 5)
  else (258, 0)

/-- The `n > 0` extra-length read of `readLiteral`: buffer `n` bits, add
`f.b & (1<<n - 1)` to the base length and consume the bits. -/
def readLenExtra (f1 : Decomp) (length0 n : Nat) : Decomp × Option Ferr × Nat :=
  if 0 < n then
    match ensureBits f1 n with
    | (f2, some e) => (f2, some e, 0)
    | (f2, none) =>
      ({ f2 with b := f2.b >>> n, nb := f2.nb - n }, none,
        length0 + (f2.b &&& ((1 <<< n) - 1)))
  else (f1, none, length0)

/-- The distance-symbol read of `readLiteral`: for nil `f.hd` (fixed
blocks) five raw bits bit-reversed, otherwise a symbol of the distance
code. -/
def readDistSym (f2 : Decomp) : Decomp × (Nat ⊕ Ferr) :=
  if f2.hdNone then
    match ensureBits f2 5 with
    | (f3, some e) => (f3, Sum.inr e)
    | (f3, none) =>
      ({ f3 with b := f3.b >>> 5, nb := f3.nb - 5 },
        Sum.inl (rev8 ((f3.b &&& 31) <<< 3)))
  else huffSym f2 f2.h2

/-- The distance decode of `readLiteral`: codes below 4 are literal,
codes below 30 read `(dist-2)>>1` extra bits, 30 and 31 are corrupt. -/
def readDistExtra (f3 : Decomp) (dist0 : Nat) : Decomp × (Nat ⊕ Ferr) :=
  if dist0 < 4 then (f3, Sum.inl (dist0 + 1))
  else if dist0 < 30 then
    let nbx := (dist0 - 2) >>> 1
    let extra0 := (dist0 &&& 1) <<< nbx
    match ensureBits f3 nbx with
    | (f4, some e) => (f4, Sum.inr e)
    | (f4, none) =>
      ({ f4 with b := f4.b >>> nbx, nb := f4.nb - nbx },
        Sum.inl ((1 <<< (nbx + 1)) + 1 + (extra0 ||| (f4.b &&& ((1 <<< nbx) - 1)))))
  else (f3, Sum.inr (Ferr.corrupt f3.roffset))

/-- The `readLiteral` / `copyHistory` state machine of
`Decompressor.huffmanBlock`, as one fuel recursion (`lit = true` is the
`readLiteral` label, `lit = false` the `copyHistory` label).  The fuel
bounds the literals and copies processed in one step call; a single call
flushes after at most 32 KiB of output, so `hbFuel` is never exhausted on
reachable states. -/
def hbRun : Nat → Bool → Decomp → Decomp
  | 0, _, f => { f with err := some (Ferr.internal "huffmanBlock fuel") }
  | fuel + 1, true, f =>
    let hl := if f.hlFixed then fixedHuffmanDecoder else f.h1
    match huffSym f hl with
    | (f1, Sum.inr e) => { f1 with err := some e }
    | (f1, Sum.inl v) =>
      if v < 256 then
        let dict1 := f1.dict.writeByte v
        if dict1.availWrite = 0 then
          let r := dict1.readFlush
          { f1 with dict := r.2, toRead := r.1, step := Step.huffmanBlk, stepState := 0 }
        else hbRun fuel true { f1 with dict := dict1 }
      else if v = 256 then finishBlock f1
      else if 286 ≤ v then { f1 with err := some (Ferr.corrupt f1.roffset) }
      else
        match readLenExtra f1 (lenCode v).1 (lenCode v).2 with
        | (f2, some e, _) => { f2 with err := some e }
        | (f2, none, length) =>
          match readDistSym f2 with
          | (f3, Sum.inr e) => { f3 with err := some e }
          | (f3, Sum.inl dist0) =>
            match readDistExtra f3 dist0 with
            | (f4, Sum.inr e) => { f4 with err := some e }
            | (f4, Sum.inl dist) =>
              if f4.dict.histSize < dist then
                { f4 with err := some (Ferr.corrupt f4.roffset) }
              else
                hbRun fuel false { f4 with copyLen := length, copyDist := dist }
  | fuel + 1, false, f =>
    let t := f.dict.tryWriteCopy f.copyDist f.copyLen
    let w : Nat × DictDecoder :=
      if t.1 = 0 then t.2.writeCopy f.copyDist f.copyLen else t
    let f1 := { f with dict := w.2, copyLen := f.copyLen - w.1 }
    if f1.dict.availWrite = 0 ∨ 0 < f1.copyLen then
      let r := f1.dict.readFlush
      { f1 with toRead := r.1, dict := r.2, step := Step.huffmanBlk, stepState := 1 }
    else hbRun fuel true f1

/-- Fuel for one `huffmanBlock` step call (a step flushes after at most
32 KiB of window writes). -/
def hbFuel : Nat := 70000

/-- `Decompressor.huffmanBlock`: dispatch on `stepState`. -/
def huffmanBlock (f : Decomp) : Decomp :=
  if f.stepState = 0 then hbRun hbFuel true f else hbRun hbFuel false f

/-- The HCLEN code-length reading loop of `readHuffman`. -/
def readCodebitsGo (nclen : Nat) : Nat → Decomp → Nat → Decomp × Option Ferr
  | 0, f, _ => (f, none)
  | fuel + 1, f, i =>
    if i < nclen then
      match ensureBits f 3 with
      | (f1, some e) => (f1, some e)
      | (f1, none) =>
        readCodebitsGo nclen fuel
          { f1 with codebits := f1.codebits.set (codeOrder.getD i 0) (f1.b &&& 7),
                    b := f1.b >>> 3, nb := f1.nb - 3 } (i + 1)
    else (f, none)

/-- Write `rep` copies of `v` into `l` starting at `i` (the repeat loop of
`readHuffman`). -/
def setRange (l : List Nat) (i rep v : Nat) : List Nat :=
  l.take i ++ List.replicate rep v ++ l.drop (i + rep)

/-- The repeat-code parameters of `readHuffman`'s length loop: base
repeat count, extra-bit count, and repeated value (`bprev` for code 16,
zero for 17 and 18). -/
def repParams (x bprev : Nat) : Nat × Nat × Nat :=
  (if x = 16 then 3 else if x = 17 then 3 else 11,
   if x = 16 then 2 else if x = 17 then 3 else 7,
   if x = 16 then bprev else 0)

/-- The HLIT+HDIST code-length decoding loop of `readHuffman`, using the
meta Huffman code in `f.h1`. -/
def readLengthsGo (n : Nat) : Nat → Decomp → Nat → Decomp × Option Ferr
  | 0, f, _ => (f, some (Ferr.internal "readHuffman fuel"))
  | fuel + 1, f, i =>
    if i < n then
      match huffSym f f.h1 with
      | (f1, Sum.inr e) => (f1, some e)
      | (f1, Sum.inl x) =>
        if x < 16 then
          readLengthsGo n fuel { f1 with bits := f1.bits.set i x } (i + 1)
        else if 18 < x then (f1, some (Ferr.internal "unexpected length code"))
        else if x = 16 ∧ i = 0 then (f1, some (Ferr.corrupt f1.roffset))
        else
          let ps := repParams x (f1.bits.getD (i - 1) 0)
          match ensureBits f1 ps.2.1 with
          | (f2, some e) => (f2, some e)
          | (f2, none) =>
            let rep := ps.1 + (f2.b &&& ((1 <<< ps.2.1) - 1))
            let f3 := { f2 with b := f2.b >>> ps.2.1, nb := f2.nb - ps.2.1 }
            if n < i + rep then (f3, some (Ferr.corrupt f3.roffset))
            else readLengthsGo n fuel { f3 with bits := setRange f3.bits i rep ps.2.2 } (i + rep)
    else (f, none)

/-- Go's `if err := ...; err != nil { return err }` propagation: run the
continuation only when the step succeeded. -/
def bindE (a : Decomp × Option Ferr) (k : Decomp → Decomp × Option Ferr) :
    Decomp × Option Ferr :=
  match a with
  | (g, some e) => (g, some e)
  | (g, none) => k g

/-- The `!h.init(...) { return Corrupt }` pattern, with the `sanity`
panic escalated. -/
def initE (r : InitRes) (g : Decomp) (k : HuffDec → Decomp × Option Ferr) :
    Decomp × Option Ferr :=
  match r with
  | InitRes.ok h => k h
  | InitRes.bad => (g, some (Ferr.corrupt g.roffset))
  | InitRes.panicked m => (g, some (Ferr.panicked m))

/-- `Decompressor.readHuffman`: parse a dynamic block's code tables
(HLIT/HDIST/HCLEN header, meta code, code lengths, table construction,
EOB min-bits optimization). -/
def readHuffman (f : Decomp) : Decomp × Option Ferr :=
  bindE (ensureBits f 14) fun f =>
    let nlit := (f.b &&& 31) + 257
    if 286 < nlit then (f, some (Ferr.corrupt f.roffset))
    else
      let f := { f with b := f.b >>> 5 }
      let ndist := (f.b &&& 31) + 1
      if 30 < ndist then (f, some (Ferr.corrupt f.roffset))
      else
        let f := { f with b := f.b >>> 5 }
        let nclen := (f.b &&& 15) + 4
        let f := { f with b := f.b >>> 4, nb := f.nb - 14 }
        bindE (readCodebitsGo nclen 20 f 0) fun f =>
          let f := ((List.range 19).drop nclen).foldl
            (fun g j => { g with codebits := g.codebits.set (codeOrder.getD j 0) 0 }) f
          initE (huffInit f.codebits) f fun hmeta =>
            let f := { f with h1 := hmeta }
            bindE (readLengthsGo (nlit + ndist) 700 f 0) fun f =>
              initE (huffInit (f.bits.take nlit)) f fun hA =>
                initE (huffInit ((f.bits.drop nlit).take ndist)) f fun hB =>
                  let hA := if hA.min < f.bits.getD 256 0
                    then { hA with min := f.bits.getD 256 0 } else hA
                  ({ f with h1 := hA, h2 := hB }, none)

/-- `Decompressor.nextBlock`: read the 3-bit block header and dispatch. -/
def nextBlock (f : Decomp) : Decomp :=
  match ensureBits f 3 with
  | (f1, some e) => { f1 with err := some e }
  | (f1, none) =>
    let final := f1.b &&& 1 = 1
    let b1 := f1.b >>> 1
    let typ := b1 &&& 3
    let f2 := { f1 with final := final, b := b1 >>> 2, nb := f1.nb - 3 }
    if typ = 0 then dataBlock f2
    else if typ = 1 then
      huffmanBlock { f2 with hlFixed := true, hdNone := true }
    else if typ = 2 then
      match readHuffman f2 with
      | (f3, some e) => { f3 with err := some e }
      | (f3, none) => huffmanBlock { f3 with hlFixed := false, hdNone := false }
    else { f2 with err := some (Ferr.corrupt f2.roffset) }

/-- One `f.step(f)` call. -/
def step1 (f : Decomp) : Decomp :=
  match f.step with
  | Step.nextBlock => nextBlock f
  | Step.huffmanBlk => huffmanBlock f
  | Step.copyDataStep => copyData f

/-- `Decompressor.Read`: serve from `toRead`, else surface a latched
error, else run one step, account the produced bytes into `woffset`, and
flush leftover history on error. -/
def flateRead : Nat → Decomp → Nat → List Nat × Option Ferr × Decomp
  | 0, f, _ => ([], some (Ferr.internal "read fuel"), f)
  | fuel + 1, f, blen =>
    if f.toRead ≠ [] then
      let n := min blen f.toRead.length
      let out := f.toRead.take n
      let f1 := { f with toRead := f.toRead.drop n }
      if f1.toRead = [] then (out, f1.err, f1) else (out, none, f1)
    else if f.err ≠ none then ([], f.err, f)
    else
      let f1 := step1 f
      let f2 := { f1 with woffset := f1.woffset + f1.toRead.length }
      let f3 :=
        if f2.err ≠ none ∧ f2.toRead = [] then
          let r := f2.dict.readFlush
          { f2 with toRead := r.1, dict := r.2, woffset := f2.woffset + r.1.length }
        else f2
      flateRead fuel f3 blen

/-- `flate.NewReaderWithSpans`: fresh state reading `src` from position
`start` (the caller's reader stands at `start`, which also seeds
`roffset` and `last`), with checkpoint emission configured. -/
def flateNewWithSpans (src : List Nat) (span start : Int) (updates : Bool) : Decomp :=
  { src := src, rpos := start.toNat, roffset := start, woffset := 0,
    b := 0, nb := 0, h1 := emptyHuff, h2 := emptyHuff,
    bits := List.replicate 316 0, codebits := List.replicate 19 0,
    dict := DictDecoder.initNew,
    step := Step.nextBlock, stepState := 0, final := false, err := none,
    toRead := [], hlFixed := false, hdNone := false, copyLen := 0, copyDist := 0,
    span := span, last := start, updates := updates, emitted := [] }

/-- `flate.Continue`: rebuild the state a checkpoint describes — fresh
32 KiB window holding a copy of `ck.Hist`, cursors and bit buffer from the
checkpoint, offsets at `ck.In`/`ck.Out`, `last := ck.Out`, next step
`nextBlock`. -/
def flateContinue (src : List Nat) (ck : Checkpoint) (span : Int) (updates : Bool) : Decomp :=
  { src := src, rpos := ck.In.toNat, roffset := ck.In, woffset := ck.Out,
    b := ck.B, nb := ck.NB, h1 := emptyHuff, h2 := emptyHuff,
    bits := List.replicate 316 0, codebits := List.replicate 19 0,
    dict := { hist := ck.Hist, wrPos := ck.WrPos, rdPos := ck.RdPos, full := ck.Full },
    step := Step.nextBlock, stepState := 0, final := false, err := none,
    toRead := [], hlFixed := false, hdNone := false, copyLen := 0, copyDist := 0,
    span := span, last := ck.Out, updates := updates, emitted := [] }

/-! ## gzip framer (the repository vendors a `gunzip.go`; it is not in
`src/`, so this layer is modelled from the spec, §4.2: RFC 1952 framing,
reserved flag bits rejected, optional extra/name/comment/hcrc fields
skipped, 8-byte CRC32+ISIZE trailer consumed at end of member.  The
model reads a single member and does not verify the CRC (verification is
"optional but specified" and no claim concerns it).  Per §3.2/§4.2 an
`Empty` member-start checkpoint is emitted so resumption at offset 0
needs no history. -/

/-- Advance past a NUL-terminated field starting at `pos`. -/
def skipZeroTerm (src : List Nat) (pos : Nat) : Option Nat :=
  match (src.drop pos).findIdx? (fun c => c = 0) with
  | some i => some (pos + i + 1)
  | none => none

/-- Modelled from the spec: parse a gzip member header (magic `1f 8b`,
method 8, flags with reserved bits rejected, then optional FEXTRA,
FNAME, FCOMMENT, FHCRC fields), returning the header's byte length. -/
def parseGzipHeader (src : List Nat) : Option Nat :=
  if 10 ≤ src.length then
    let flg := src.getD 3 0
    if src.getD 0 0 = 31 ∧ src.getD 1 0 = 139 ∧ src.getD 2 0 = 8 ∧ flg &&& 224 = 0 then
      let p1? : Option Nat :=
        if flg &&& 4 ≠ 0 then
          if 12 ≤ src.length then
            let xl := src.getD 10 0 + 256 * src.getD 11 0
            if 12 + xl ≤ src.length then some (12 + xl) else none
          else none
        else some 10
      match p1? with
      | none => none
      | some p1 =>
        match (if flg &&& 8 ≠ 0 then skipZeroTerm src p1 else some p1) with
        | none => none
        | some p2 =>
          match (if flg &&& 16 ≠ 0 then skipZeroTerm src p2 else some p2) with
          | none => none
          | some p3 =>
            if flg &&& 2 ≠ 0 then
              (if p3 + 2 ≤ src.length then some (p3 + 2) else none)
            else some p3
    else none
  else none

/-- Modelled from the spec: `gzip.Reader` — the flate decoder plus the
member's uncompressed position (`Offset()`) and a latched error. -/
structure GzipReader where
  flate : Decomp
  offset : Int
  err : Option Ferr

/-- `defaultSpan`: target compressed-space gap between checkpoints. -/
def defaultSpan : Int := 1048576

/-- Modelled from the spec: `gzip.NewReader(r, updates)` — parse the
header, build the flate decoder starting right after it (absolute
offsets seeded with the header length), and send an `Empty` member-start
checkpoint on the updates channel. -/
def gzipNewReader (src : List Nat) : Option GzipReader :=
  match parseGzipHeader src with
  | none => none
  | some hl =>
    let ck0 : Checkpoint := { In := (hl : Int), Out := 0, Empty := true }
    let f := flateNewWithSpans src defaultSpan (hl : Int) true
    some { flate := { f with emitted := [ck0] }, offset := 0, err := none }

/-- Modelled from the spec: `gzip.Continue(r, span, ck, updates)` as gsip
calls it (`span = 0`, `updates = nil`): resume the flate decoder from the
checkpoint; `Offset()` starts at `ck.Out`. -/
def gzipContinue (src : List Nat) (ck : Checkpoint) : GzipReader :=
  { flate := flateContinue src ck 0 false, offset := ck.Out, err := none }

/-- Modelled from the spec: one `gzip.Reader.Read` call: serve a flate
read, counting bytes into `offset`; on flate end-of-stream consume the
8-byte trailer (short trailer is `UnexpectedEof`) and latch `eof`
(single-member model); latch any other error.  The trailer is read from
the shared input, so only the input cursor advances. -/
def gzipRead (flFuel : Nat) (g : GzipReader) (blen : Nat) :
    List Nat × Option Ferr × GzipReader :=
  if g.err ≠ none then ([], g.err, g)
  else
    match flateRead flFuel g.flate blen with
    | (out, none, f1) => (out, none, { g with flate := f1, offset := g.offset + out.length })
    | (out, some e, f1) =>
      if e = Ferr.eof then
        if f1.rpos + 8 ≤ f1.src.length then
          (out, some Ferr.eof,
            { flate := { f1 with rpos := f1.rpos + 8 },
              offset := g.offset + out.length, err := some Ferr.eof })
        else
          (out, some Ferr.unexpectedEof,
            { flate := f1, offset := g.offset + out.length,
              err := some Ferr.unexpectedEof })
      else (out, some e, { flate := f1, offset := g.offset + out.length, err := some e })

/-! ## io helpers: `io.ReadFull` / `io.CopyN` (Go standard semantics) -/

/-- `io.ReadAtLeast(r, buf, min)` with `min = len(buf)` (`io.ReadFull`):
keep reading while short and error-free; a short total with `eof` after
at least one byte becomes `unexpectedEof`; reaching the total clears a
pending error.  `need` is the bytes still missing, `acc` those already
read; fuel `need + 1` always suffices since error-free reads are
nonempty. -/
def readFullG : Nat → Nat → GzipReader → Nat → Nat → List Nat × Option Ferr × GzipReader
  | 0, _, g, _, _ => ([], some (Ferr.internal "readFull fuel"), g)
  | fuel + 1, flFuel, g, need, acc =>
    if need = 0 then ([], none, g)
    else
      match gzipRead flFuel g need with
      | (out, none, g1) =>
        let r := readFullG fuel flFuel g1 (need - out.length) (acc + out.length)
        (out ++ r.1, r.2.1, r.2.2)
      | (out, some e, g1) =>
        if need ≤ out.length then (out, none, g1)
        else if 0 < acc + out.length ∧ e = Ferr.eof then (out, some Ferr.unexpectedEof, g1)
        else (out, some e, g1)

/-- `io.ReadFull(g, p)` for a buffer of length `blen`. -/
def ioReadFull (flFuel : Nat) (g : GzipReader) (blen : Nat) :
    List Nat × Option Ferr × GzipReader :=
  readFullG (blen + 1) flFuel g blen 0

/-- `io.CopyN(io.Discard, g, n)`: read and drop `n` bytes.  Written
bytes are only counted; a clean source `eof` on a short copy surfaces as
`eof` (as `CopyN` specifies), other errors as themselves; copying the
full `n` succeeds.  (Go chunks reads with a 32 KiB buffer; the model
requests the remainder directly — the source behaves identically under
either chunking.) -/
def copyNGo : Nat → Nat → GzipReader → Nat → Nat × Option Ferr × GzipReader
  | 0, _, g, _ => (0, some (Ferr.internal "copyN fuel"), g)
  | fuel + 1, flFuel, g, rem =>
    if rem = 0 then (0, none, g)
    else
      match gzipRead flFuel g rem with
      | (out, none, g1) =>
        let r := copyNGo fuel flFuel g1 (rem - out.length)
        (out.length + r.1, r.2.1, r.2.2)
      | (out, some e, g1) =>
        if rem = out.length then (out.length, none, g1)
        else (out.length, some e, g1)

/-- `io.CopyN(io.Discard, g, n)`. -/
def ioCopyN (flFuel : Nat) (g : GzipReader) (n : Nat) : Nat × Option Ferr × GzipReader :=
  copyNGo (n + 1) flFuel g n

/-! ## gsip: the pooled random-access reader (`gsip.go`) -/

/-- `gsip.Reader`: the compressed blob, the checkpoint list the
collector goroutine has appended so far, and the decoder pool with an
availability flag per decoder (Go uses a map; the model fixes the
iteration order as list order).  Channel sends are modelled by each
decoder's `emitted` buffer, transferred (in order) to `checkpoints` when
the pool lock is next taken on that decoder. -/
structure GsipReader where
  src : List Nat
  checkpoints : List Checkpoint
  readers : List (GzipReader × Bool)

/-- Fallback value for pool lookups (never reached: indices come from
`findIdx?`). -/
def dumRdr : GzipReader × Bool := (gzipContinue [] {}, false)

/-- `gsip.NewReader`: build the frontier decoder; the member-start
checkpoint it sends is drained into `checkpoints`. -/
def gsipNewReader (src : List Nat) : Option GsipReader :=
  match gzipNewReader src with
  | none => none
  | some zr =>
    some { src := src, checkpoints := zr.flate.emitted,
           readers := [({ zr with flate := { zr.flate with emitted := [] } }, true)] }

/-- The checkpoint scan of `acquireReader`: walk the list, remembering
the last checkpoint seen, and stop at the first with `Out > off`. -/
def highestCk : List Checkpoint → Int → Option Checkpoint
  | [], _ => none
  | ck :: rest, off =>
    if off < ck.Out then none
    else
      match highestCk rest off with
      | some c => some c
      | none => some ck

/-- `Reader.acquireReader(off)`: (1) an idle decoder positioned exactly
at `off`; else (2) resume from the remembered checkpoint and discard
`off − ck.Out` bytes, appending the new decoder to the pool; else (3)
with no usable checkpoint, take any idle decoder at or before `off` and
discard forward (it is marked busy before the discard, so a failed
discard leaks it busy, as in the source); else (4) fail.  Returns the
updated pool state and the index of the acquired decoder. -/
def acquireReader (fuel : Nat) (r : GsipReader) (off : Int) :
    GsipReader × Except Ferr Nat :=
  match r.readers.findIdx? (fun p => p.2 && p.1.offset == off) with
  | some i =>
    ({ r with readers := r.readers.set i ((r.readers.getD i dumRdr).1, false) },
      Except.ok i)
  | none =>
    match highestCk r.checkpoints off with
    | none =>
      match r.readers.findIdx? (fun p => p.2 && decide (p.1.offset ≤ off)) with
      | some i =>
        let zr := (r.readers.getD i dumRdr).1
        match copyNGo fuel fuel zr (off - zr.offset).toNat with
        | (_, some e, zr1) =>
          ({ r with readers := r.readers.set i (zr1, false) }, Except.error e)
        | (_, none, zr1) =>
          ({ r with readers := r.readers.set i (zr1, false) }, Except.ok i)
      | none => (r, Except.error (Ferr.generic "no checkpoints or readers"))
    | some hi =>
      let zr := gzipContinue r.src hi
      match copyNGo fuel fuel zr (off - hi.Out).toNat with
      | (_, some e, _) => (r, Except.error e)
      | (_, none, zr1) =>
        ({ r with readers := r.readers ++ [(zr1, false)] },
          Except.ok r.readers.length)

/-- The deferred release in `ReadAt`: put the decoder back as idle; the
checkpoints it sent during this call are appended by the collector. -/
def releaseAt (r : GsipReader) (i : Nat) (g : GzipReader) : GsipReader :=
  { r with checkpoints := r.checkpoints ++ g.flate.emitted,
           readers := r.readers.set i
             ({ g with flate := { g.flate with emitted := [] } }, true) }

/-- `Reader.ReadAt(p, off)` for a buffer of length `blen`: acquire a
decoder positioned at `off`, `io.ReadFull` into the buffer, release. -/
def gsipReadAt (fuel : Nat) (r : GsipReader) (off : Int) (blen : Nat) :
    List Nat × Option Ferr × GsipReader :=
  match acquireReader fuel r off with
  | (r1, Except.error e) => ([], some e, r1)
  | (r1, Except.ok i) =>
    let zr := (r1.readers.getD i dumRdr).1
    match readFullG (blen + 1) fuel zr blen 0 with
    | (out, e, zr1) => (out, e, releaseAt r1 i zr1)

/-- A full sequential decompression (`gunzip`): repeated big reads until
the decoder reports an error; the reference stream for random access. -/
def drainG : Nat → Nat → GzipReader → List Nat × Option Ferr × GzipReader
  | 0, _, g => ([], some (Ferr.internal "drain fuel"), g)
  | fuel + 1, flFuel, g =>
    match gzipRead flFuel g 32768 with
    | (out, some e, g1) => (out, some e, g1)
    | (out, none, g1) =>
      let r := drainG fuel flFuel g1
      (out ++ r.1, r.2.1, r.2.2)

/-! ### Concrete flate streams used by the claim theorems -/

/-- A deflate stream of four stored blocks: 5 × `A`, an empty block (which
flushes the window to the caller), 5 × `B`, and a final empty block.  With
`span = 5` the inter-block boundary after the second 5-byte block sees the
uncompressed position exactly `span` bytes past the last emission point. -/
def c2src : List Nat :=
  [0, 5, 0, 250, 255] ++ List.replicate 5 65 ++
  [0, 0, 0, 255, 255] ++
  [0, 5, 0, 250, 255] ++ List.replicate 5 66 ++
  [1, 0, 0, 255, 255]

/-- The run of `c2src` up to the first flush: a fresh decoder with
`span = 5` and a checkpoint channel, read once. -/
def c2mid : List Nat × Option Ferr × Decomp :=
  flateRead 10 (flateNewWithSpans c2src 5 0 true) 100

/-- The uncompressed position `finishBlock` reckons with: the current
`woffset`, plus the pending final flush on the last block. -/
def finishWoff (f : Decomp) : Int :=
  if f.final ∧ 0 < f.dict.availRead then f.woffset + (f.dict.availRead : Int)
  else f.woffset

/-- The deflate stream of C4's failing input: one final dynamic-Huffman
block declaring HLIT = 257, HDIST = 1, HCLEN = 4 whose meta code assigns
the single length 2 — an incomplete, non-degenerate coding. -/
def c4src : List Nat := [5, 0, 4, 0]

/-! ### Checkpoint-ordering invariants (C5) -/

/-- The claimed checkpoint order: strictly increasing `Out`, weakly
increasing `In`. -/
def ckLt (a b : Checkpoint) : Prop := a.Out < b.Out ∧ a.In ≤ b.In

/-- Invariant tying the checkpoints already collected (`cks`) and the
decoder's pending emissions to its cursors: the combined sequence is
ordered, every checkpoint's `Out` is at or below the emission watermark
`last` and its `In` at or below the compressed cursor, and the span is
nonnegative. -/
def InvC (cks : List Checkpoint) (f : Decomp) : Prop :=
  List.Chain' ckLt (cks ++ f.emitted) ∧
  (∀ ck ∈ cks ++ f.emitted, ck.Out ≤ f.last ∧ ck.In ≤ f.roffset) ∧
  0 ≤ f.span

/-- What every decoder operation preserves: the configuration fields,
monotonicity of the compressed cursor and (for nonnegative spans) of the
emission watermark, absence of emissions without a channel, and `InvC`. -/
def Pres (f g : Decomp) : Prop :=
  g.span = f.span ∧ g.updates = f.updates ∧ f.roffset ≤ g.roffset ∧
  (0 ≤ f.span → f.last ≤ g.last) ∧
  (f.updates = false → g.emitted = f.emitted) ∧
  (∀ cks, InvC cks f → InvC cks g)

/-- A pool entry with no channel has nothing pending. -/
def pOkQ (p : GzipReader × Bool) : Prop :=
  p.1.flate.updates = false ∧ p.1.flate.emitted = []

/-- A pool entry is either channel-less and empty, or in `InvC` with the
collected checkpoints. -/
def pOkF (cks : List Checkpoint) (p : GzipReader × Bool) : Prop :=
  pOkQ p ∨ InvC cks p.1.flate

/-- The gsip pool invariant: collected checkpoints are ordered, and at
most one pool entry (the frontier) owns the updates channel, in `InvC`;
all others are channel-less with no pending emissions. -/
def InvG (r : GsipReader) : Prop :=
  List.Chain' ckLt r.checkpoints ∧
  ∃ k, ∀ i, ∀ h : i < r.readers.length,
    if i = k then pOkF r.checkpoints (r.readers.get ⟨i, h⟩)
    else pOkQ (r.readers.get ⟨i, h⟩)

/-- Folding a sequence of `ReadAt` requests over a gsip reader. -/
def runReads (fuel : Nat) (r : GsipReader) (reqs : List (Int × Nat)) : GsipReader :=
  reqs.foldl (fun s q => (gsipReadAt fuel s q.1 q.2).2.2) r

/-- A complete single-member gzip blob whose payload is the two bytes
`HI` in one final stored block (10-byte header, 7-byte deflate stream,
8-byte CRC32+ISIZE trailer; the model does not verify the CRC). -/
def tinyGz : List Nat :=
  [31, 139, 8, 0, 0, 0, 0, 0, 0, 255] ++
  [1, 2, 0, 253, 255, 72, 73] ++
  [1, 2, 3, 4, 2, 0, 0, 0]

/-! ### tarfs lemmas -/

/-- Giving `openAux` more fuel than `openHops` supplies changes nothing:
the hop guard, not the fuel, decides every call.  This discharges the
faithfulness of the structural-fuel translation of the Go recursion. -/
theorem openAux_fuel_inv (fs : FS) :
    ∀ fuel name hops, maxHops + 2 - hops ≤ fuel →
      openAux fs fuel name hops = openHops fs name hops := by
  intro fuel
  induction fuel with
  | zero =>
    intro name hops h
    have : maxHops + 2 - hops = 0 := by omega
    rw [openHops, this]
  | succ fuel ih =>
    intro name hops h
    by_cases hg : maxHops < hops
    · rcases Nat.lt_or_ge hops (maxHops + 2) with hlt | hge
      · have : maxHops + 2 - hops = 1 := by omega
        rw [openHops, this]
        simp only [openAux, if_pos hg]
      · have : maxHops + 2 - hops = 0 := by omega
        rw [openHops, this]
        simp only [openAux, if_pos hg]
    · have hun : maxHops + 2 - hops = (maxHops + 2 - (hops + 1)) + 1 := by omega
      have hrec : maxHops + 2 - (hops + 1) ≤ fuel := by omega
      rw [openHops, hun]
      simp only [openAux, if_neg hg]
      have ihh : ∀ nm, openAux fs fuel nm (hops + 1)
          = openAux fs (maxHops + 2 - (hops + 1)) nm (hops + 1) := by
        intro nm
        rw [ih nm (hops + 1) hrec, openHops]
      split
      · split
        · rw [ihh]
        · rfl
      · split
        · rw [ihh]
        · rw [ihh]
        · rfl

/-- The invocation count of `openAux` is bounded by the hop budget. -/
theorem openAux_count_le (fs : FS) :
    ∀ fuel name hops, (openAux fs fuel name hops).2 ≤ max (maxHops + 2 - hops) 1 := by
  intro fuel
  induction fuel with
  | zero =>
    intro name hops
    show 1 ≤ _
    omega
  | succ fuel ih =>
    intro name hops
    rw [openAux]
    by_cases hg : maxHops < hops
    · rw [if_pos hg]
      show 1 ≤ _
      omega
    · rw [if_neg hg]
      have key : ∀ nm, (openAux fs fuel nm (hops + 1)).2 + 1 ≤ max (maxHops + 2 - hops) 1 := by
        intro nm
        have h1 := ih nm (hops + 1)
        omega
      split
      · split
        · exact key _
        · show 1 ≤ _
          omega
      · split
        · exact key _
        · exact key _
        · show 1 ≤ _
          omega

/-- `addToDirs` updates exactly the key `e.dir` of the association list. -/
theorem addToDirs_lookup (e : Entry) (d : String) :
    ∀ m : List (String × List Entry),
      (addToDirs m e).lookup d =
        if e.dir = d then some (((m.lookup d).getD []) ++ [e]) else m.lookup d := by
  intro m
  induction m with
  | nil =>
    by_cases hd : e.dir = d
    · have hb : (d == e.dir) = true := beq_iff_eq.mpr hd.symm
      simp [addToDirs, List.lookup, hb, hd]
    · have hb : (d == e.dir) = false := beq_eq_false_iff_ne.mpr fun h => hd h.symm
      simp [addToDirs, List.lookup, hb, hd]
  | cons p rest ih =>
    obtain ⟨k, es⟩ := p
    show ((if k = e.dir then (k, es ++ [e]) :: rest
           else (k, es) :: addToDirs rest e).lookup d) = _
    by_cases hk : k = e.dir
    · rw [if_pos hk]
      by_cases hd : d = k
      · have hb : (d == k) = true := beq_iff_eq.mpr hd
        have hed : e.dir = d := (hd.trans hk).symm
        simp [List.lookup, hb, hed]
      · have hb : (d == k) = false := beq_eq_false_iff_ne.mpr hd
        have hed : ¬ (e.dir = d) := fun h => hd (h.symm.trans hk.symm)
        simp [List.lookup, hb, hed]
    · rw [if_neg hk]
      by_cases hd : d = k
      · have hb : (d == k) = true := beq_iff_eq.mpr hd
        have hed : ¬ (e.dir = d) := fun h => hk ((h.trans hd).symm)
        simp [List.lookup, hb, hed]
      · have hb : (d == k) = false := beq_eq_false_iff_ne.mpr hd
        simp [List.lookup, hb, ih]

/-- Folding `addToDirs` over the entry list groups entries by parent
directory, in order, as the per-directory append loop of `tarfs.New` does. -/
theorem foldl_addToDirs_lookup (d : String) :
    ∀ (files : List Entry) (m : List (String × List Entry)),
      (files.foldl addToDirs m).lookup d =
        (if (files.filter fun e => e.dir = d) = [] then m.lookup d
         else some (((m.lookup d).getD []) ++ (files.filter fun e => e.dir = d))) := by
  intro files
  induction files with
  | nil => intro m; simp
  | cons e fs ih =>
    intro m
    simp only [List.foldl_cons, ih (addToDirs m e), addToDirs_lookup]
    by_cases hd : e.dir = d
    · have hdec : decide (e.dir = d) = true := by simpa using hd
      simp only [List.filter_cons, hdec, if_pos hd, if_true]
      by_cases hf : (fs.filter fun e => e.dir = d) = []
      · simp [hf]
      · simp [hf, List.append_assoc]
    · have hdec : decide (e.dir = d) = false := by simpa using hd
      simp only [List.filter_cons, hdec, if_neg hd]
      simp

/-- Key lookup commutes with per-value sorting of the listings. -/
theorem lookup_map_sort (d : String) :
    ∀ m : List (String × List Entry),
      ((m.map fun p => (p.1, sortEntries p.2)).lookup d) = (m.lookup d).map sortEntries := by
  intro m
  induction m with
  | nil => simp
  | cons p rest ih =>
    by_cases hd : d = p.1
    · have hb : (d == p.1) = true := beq_iff_eq.mpr hd
      simp [List.lookup, hb]
    · have hb : (d == p.1) = false := beq_eq_false_iff_ne.mpr hd
      simp [List.lookup, hb, ih]

/-- Totality of the lexicographic byte order. -/
theorem charsLe_total : ∀ as bs : List Char, charsLe as bs = true ∨ charsLe bs as = true := by
  intro as
  induction as with
  | nil => intro bs; left; rfl
  | cons a as ih =>
    intro bs
    cases bs with
    | nil => right; rfl
    | cons b bs =>
      rcases Nat.lt_trichotomy a.toNat b.toNat with h | h | h
      · left
        simp [charsLe, h]
      · rcases ih bs with h2 | h2
        · left
          simp [charsLe, h, h2]
        · right
          simp [charsLe, h.symm, h2]
      · right
        simp [charsLe, h]

theorem strLe_total (a b : String) : strLe a b = true ∨ strLe b a = true :=
  charsLe_total a.data b.data

theorem insertEntry_chain (e : Entry) :
    ∀ l : List Entry, List.Chain' nameLe l → List.Chain' nameLe (insertEntry e l) := by
  intro l
  induction l with
  | nil => intro _; simp [insertEntry]
  | cons x xs ih =>
    intro hc
    by_cases hle : strLe (entryName e) (entryName x) = true
    · show List.Chain' nameLe (if strLe (entryName e) (entryName x) then _ else _)
      rw [if_pos hle]
      exact List.Chain'.cons hle hc
    · show List.Chain' nameLe (if strLe (entryName e) (entryName x) then _ else _)
      rw [if_neg hle]
      have hxe : nameLe x e := by
        rcases strLe_total (entryName e) (entryName x) with h | h
        · exact absurd h hle
        · exact h
      have hrec := ih hc.tail
      cases xs with
      | nil => simpa [insertEntry] using hxe
      | cons y ys =>
        have hxy : nameLe x y := (List.chain'_cons.mp hc).1
        by_cases hley : strLe (entryName e) (entryName y) = true
        · have hins : insertEntry e (y :: ys) = e :: y :: ys := by
            simp [insertEntry, hley]
          rw [hins]
          exact List.Chain'.cons hxe (List.Chain'.cons hley hc.tail)
        · have hins : insertEntry e (y :: ys) = y :: insertEntry e ys := by
            simp [insertEntry, hley]
          rw [hins] at hrec ⊢
          exact List.Chain'.cons hxy hrec

/-- The sorted listings produced by `tarfs.New` are chains in `Name()` order. -/
theorem sortEntries_chain : ∀ l : List Entry, List.Chain' nameLe (sortEntries l) := by
  intro l
  induction l with
  | nil => simp [sortEntries]
  | cons e xs ih => exact insertEntry_chain e _ ih

theorem insertEntry_length (e : Entry) :
    ∀ l : List Entry, (insertEntry e l).length = l.length + 1 := by
  intro l
  induction l with
  | nil => rfl
  | cons x xs ih =>
    by_cases h : strLe (entryName e) (entryName x) = true <;> simp [insertEntry, h, ih]

theorem sortEntries_length : ∀ l : List Entry, (sortEntries l).length = l.length := by
  intro l
  induction l with
  | nil => rfl
  | cons e xs ih =>
    show (insertEntry e (sortEntries xs)).length = xs.length + 1
    rw [insertEntry_length, ih]

/-- `FS.ReadDir` over a constructed index: the (sorted) entries whose parent
is `name`, and never an error. -/
theorem fsReadDir_tarfsNew (hdrs : List (TarHdr × Int)) (d : String) :
    fsReadDir (tarfsNew hdrs) d =
      (sortEntries ((hdrs.map fun p => mkEntry p.1 p.2).filter fun e => e.dir = d), none) := by
  unfold fsReadDir tarfsNew
  simp only [lookup_map_sort, foldl_addToDirs_lookup]
  by_cases hf : (((hdrs.map fun p => mkEntry p.1 p.2).filter fun e => e.dir = d)) = []
  · simp [hf, sortEntries]
  · simp [hf]

/-! ### Claim theorems C7..C10 -/

/-- C7: `FS.open` follows symlink and hardlink indirections while the hop
counter is at most 255 and fails with `TooManySymlinks` as soon as it
exceeds 255, so every call chain — a link cycle in particular — terminates:
(1) any call with `hops > 255` fails immediately with `TooManySymlinks`;
(2) the total number of `open` invocations from any call is bounded by the
remaining hop budget (at most 257 invocations, i.e. 256 recursive
link-follows, from a fresh `open(name, 0)`);
(3) on a self-referential symlink, `open` returns `TooManySymlinks` after
exactly 257 invocations (256 followed links);
(4) at `hops = 255` the link is still followed once more (the guard fires
only on the next call). -/
theorem c7_open_symlink_termination :
    (∀ (fs : FS) (name : String) (hops : Nat), maxHops < hops →
        openHops fs name hops = (OpenRes.err TarErr.tooManySymlinks, 1))
    ∧ (∀ (fs : FS) (name : String) (hops : Nat),
        (openHops fs name hops).2 ≤ max (maxHops + 2 - hops) 1)
    ∧ openHops exCycleFS "loop" 0 = (OpenRes.err TarErr.tooManySymlinks, 257)
    ∧ openHops exCycleFS "loop" 255 = (OpenRes.err TarErr.tooManySymlinks, 2) := by
  refine ⟨?_, ?_, ?_, ?_⟩
  · intro fs name hops hg
    rw [openHops]
    rcases hf : maxHops + 2 - hops with _ | f
    · rfl
    · simp [openAux, hg]
  · intro fs name hops
    rw [openHops]
    exact openAux_count_le fs _ name hops
  · set_option maxRecDepth 20000 in decide
  · set_option maxRecDepth 20000 in decide

/-- C7 witness: the universally quantified parts of
`c7_open_symlink_termination` applied at concrete inputs. -/
theorem c7_witness :
    openHops exCycleFS "nope" 300 = (OpenRes.err TarErr.tooManySymlinks, 1)
    ∧ (openHops exCycleFS "loop" 0).2 ≤ 257 := by
  constructor
  · exact c7_open_symlink_termination.1 exCycleFS "nope" 300 (by decide)
  · have h := c7_open_symlink_termination.2.1 exCycleFS "loop" 0
    simpa [maxHops] using h

/-- C8 counterexample: an archive containing two members both named `a`
produces a directory listing with two identically-named entries, so
`read_dir` does not deduplicate colliding names as the claim states. -/
theorem c8_readdir_dup_counterexample :
    (fsReadDir exDupFS ".").1.map entryName = ["a", "a"]
    ∧ ¬ ((fsReadDir exDupFS ".").1.map entryName).Nodup := by
  constructor
  · decide
  · decide

/-- C8 (amended): for every archive and directory, `read_dir` returns the
member entries whose parent is that directory sorted lexicographically by
`Name()` (and never an error), but colliding duplicate-named members each
contribute an entry — the listing length equals the number of members with
that parent, duplicates included. -/
theorem c8_readdir_sorted :
    ∀ (hdrs : List (TarHdr × Int)) (d : String),
      List.Chain' nameLe (fsReadDir (tarfsNew hdrs) d).1
      ∧ (fsReadDir (tarfsNew hdrs) d).2 = none
      ∧ (fsReadDir (tarfsNew hdrs) d).1.length
          = ((hdrs.map fun p => mkEntry p.1 p.2).filter fun e => e.dir = d).length := by
  intro hdrs d
  rw [fsReadDir_tarfsNew]
  exact ⟨sortEntries_chain _, rfl, sortEntries_length _⟩

/-- `File.ReadDir(0)` returns nothing and keeps the cursor. -/
theorem fileReadDir_zero (fs : FS) (fn : String) (c : Nat) :
    fileReadDir fs fn c 0 = ([], none, c) := by
  unfold fileReadDir
  rw [if_pos rfl]

/-- `File.ReadDir(n)` with `n < 0` returns all remaining entries; the
cursor moves to the end of the listing unless it was already past it. -/
theorem fileReadDir_neg (fs : FS) (fn : String) (c : Nat) (n : Int) (hn : n < 0) :
    fileReadDir fs fn c n =
      ((fsReadDir fs fn).1.drop c, none,
        if (fsReadDir fs fn).1.length ≤ c then c else (fsReadDir fs fn).1.length) := by
  unfold fileReadDir
  rw [if_neg (show ¬ n = 0 by omega)]
  by_cases hl : (fsReadDir fs fn).1.length ≤ c
  · simp only [if_pos hl, if_pos hn]
    rw [List.drop_eq_nil_of_le hl]
  · have hcond : ¬ (0 < n ∧ (n : Int) < ((fsReadDir fs fn).1.length : Int) - (c : Int)) := by
      omega
    simp only [if_neg hl, if_neg hcond]

/-- `File.ReadDir(n)` with `n > 0` returns EOF once exhausted, else up to
`n` of the remaining entries, advancing the cursor accordingly. -/
theorem fileReadDir_pos (fs : FS) (fn : String) (c : Nat) (n : Int) (hn : 0 < n) :
    fileReadDir fs fn c n =
      (if (fsReadDir fs fn).1.length ≤ c then ([], some TarErr.eofErr, c)
       else (((fsReadDir fs fn).1.drop c).take n.toNat, none,
             min (c + n.toNat) (fsReadDir fs fn).1.length)) := by
  unfold fileReadDir
  rw [if_neg (show ¬ n = 0 by omega)]
  by_cases hl : (fsReadDir fs fn).1.length ≤ c
  · simp only [if_pos hl, if_neg (show ¬ n < 0 by omega)]
  · simp only [if_neg hl]
    by_cases hmid : 0 < n ∧ (n : Int) < ((fsReadDir fs fn).1.length : Int) - (c : Int)
    · simp only [if_pos hmid]
      have hmin : min (c + n.toNat) (fsReadDir fs fn).1.length = c + n.toNat := by omega
      rw [hmin]
    · simp only [if_neg hmid]
      have hge : ((fsReadDir fs fn).1.length : Int) - (c : Int) ≤ n := by omega
      have hmin : min (c + n.toNat) (fsReadDir fs fn).1.length
          = (fsReadDir fs fn).1.length := by omega
      rw [hmin]
      have htk : (((fsReadDir fs fn).1.drop c).take n.toNat) = (fsReadDir fs fn).1.drop c := by
        apply List.take_of_length_le
        rw [List.length_drop]
        omega
      rw [htk]

/-- One `File.ReadDir` call returns the contiguous segment of the listing
between the old and new cursor, and moves the cursor forward, never past
the end (and never below where it started). -/
theorem fileReadDir_step (fs : FS) (fn : String) (c : Nat) (n : Int) :
    (fileReadDir fs fn c n).1
        = ((fsReadDir fs fn).1.drop c).take ((fileReadDir fs fn c n).2.2 - c)
    ∧ c ≤ (fileReadDir fs fn c n).2.2
    ∧ (fileReadDir fs fn c n).2.2 ≤ max c (fsReadDir fs fn).1.length := by
  rcases lt_trichotomy n 0 with hn | hn | hn
  · rw [fileReadDir_neg fs fn c n hn]
    by_cases hl : (fsReadDir fs fn).1.length ≤ c
    · simp only [if_pos hl]
      refine ⟨?_, le_refl c, le_max_left _ _⟩
      show (fsReadDir fs fn).1.drop c = _
      rw [List.drop_eq_nil_of_le hl]
      simp
    · simp only [if_neg hl]
      refine ⟨?_, by omega, le_max_right _ _⟩
      show (fsReadDir fs fn).1.drop c = _
      rw [List.take_of_length_le]
      rw [List.length_drop]
  · subst hn
    rw [fileReadDir_zero]
    exact ⟨by simp, le_refl c, le_max_left _ _⟩
  · rw [fileReadDir_pos fs fn c n hn]
    by_cases hl : (fsReadDir fs fn).1.length ≤ c
    · simp only [if_pos hl]
      exact ⟨by simp, le_refl c, le_max_left _ _⟩
    · simp only [if_neg hl]
      refine ⟨?_, by omega, by omega⟩
      show ((fsReadDir fs fn).1.drop c).take n.toNat = _
      rw [List.take_eq_take]
      rw [List.length_drop]
      omega

/-- Over a whole request sequence, the concatenation of the returned slices
is the segment of the listing between the initial and final cursor. -/
theorem runReadDir_join (fs : FS) (fn : String) :
    ∀ (reqs : List Int) (c : Nat),
      (runReadDir fs fn c reqs).1.flatten
          = ((fsReadDir fs fn).1.drop c).take ((runReadDir fs fn c reqs).2 - c)
      ∧ c ≤ (runReadDir fs fn c reqs).2
      ∧ (runReadDir fs fn c reqs).2 ≤ max c (fsReadDir fs fn).1.length := by
  intro reqs
  induction reqs with
  | nil =>
    intro c
    exact ⟨by simp [runReadDir], le_refl c, le_max_left _ _⟩
  | cons n rest ih =>
    intro c
    obtain ⟨hout, hc1, hc2⟩ := fileReadDir_step fs fn c n
    obtain ⟨ihj, ihc1, ihc2⟩ := ih (fileReadDir fs fn c n).2.2
    have hrun : runReadDir fs fn c (n :: rest)
        = ((fileReadDir fs fn c n).1 :: (runReadDir fs fn (fileReadDir fs fn c n).2.2 rest).1,
           (runReadDir fs fn (fileReadDir fs fn c n).2.2 rest).2) := rfl
    rw [hrun]
    refine ⟨?_, by omega, by omega⟩
    show (fileReadDir fs fn c n).1
        ++ (runReadDir fs fn (fileReadDir fs fn c n).2.2 rest).1.flatten = _
    rw [hout, ihj]
    have hdd : (fsReadDir fs fn).1.drop (fileReadDir fs fn c n).2.2
        = ((fsReadDir fs fn).1.drop c).drop ((fileReadDir fs fn c n).2.2 - c) := by
      rw [List.drop_drop]
      congr 1
      omega
    rw [hdd, ← List.take_add]
    congr 1
    omega

/-- The final cursor of a request run decomposes along `++`. -/
theorem runReadDir_snd_append (fs : FS) (fn : String) :
    ∀ (xs ys : List Int) (c : Nat),
      (runReadDir fs fn c (xs ++ ys)).2
        = (runReadDir fs fn (runReadDir fs fn c xs).2 ys).2 := by
  intro xs
  induction xs with
  | nil => intro ys c; rfl
  | cons x xs ih =>
    intro ys c
    show (runReadDir fs fn (fileReadDir fs fn c x).2.2 (xs ++ ys)).2 = _
    rw [ih]
    rfl

/-- C9 counterexample: `File.ReadDir(0)` returns no entries and a nil
error even when entries remain, contradicting the claim that every
`n ≤ 0` call returns all remaining entries. -/
theorem c9_readdir_zero_counterexample :
    fileReadDir exPageFS "." 0 0 = ([], none, 0)
    ∧ (fsReadDir exPageFS ".").1 ≠ [] := by
  constructor
  · decide
  · decide

/-- C9 (amended): `File.ReadDir(n)` with `n > 0` returns up to `n` of the
remaining entries and `io.EOF` once the cursor is exhausted; `n < 0`
returns all remaining entries; `n = 0` returns nothing and leaves the
cursor unchanged; and the concatenation of the slices from successive
calls is the contiguous segment between the initial and final cursor — in
particular, finishing any run with one `n < 0` call yields exactly the full
directory listing. -/
theorem c9_readdir_pagination :
    (∀ (fs : FS) (fn : String) (c : Nat),
        fileReadDir fs fn c 0 = ([], none, c))
    ∧ (∀ (fs : FS) (fn : String) (c : Nat) (n : Int), n < 0 →
        fileReadDir fs fn c n =
          ((fsReadDir fs fn).1.drop c, none,
            if (fsReadDir fs fn).1.length ≤ c then c else (fsReadDir fs fn).1.length))
    ∧ (∀ (fs : FS) (fn : String) (c : Nat) (n : Int), 0 < n →
        fileReadDir fs fn c n =
          (if (fsReadDir fs fn).1.length ≤ c then ([], some TarErr.eofErr, c)
           else (((fsReadDir fs fn).1.drop c).take n.toNat, none,
                 min (c + n.toNat) (fsReadDir fs fn).1.length)))
    ∧ (∀ (fs : FS) (fn : String) (c : Nat) (reqs : List Int),
        (runReadDir fs fn c reqs).1.flatten
            = (((fsReadDir fs fn).1.drop c).take ((runReadDir fs fn c reqs).2 - c))
          ∧ c ≤ (runReadDir fs fn c reqs).2
          ∧ (runReadDir fs fn c reqs).2 ≤ max c (fsReadDir fs fn).1.length)
    ∧ (∀ (fs : FS) (fn : String) (reqs : List Int) (q : Int), q < 0 →
        (runReadDir fs fn 0 (reqs ++ [q])).1.flatten = (fsReadDir fs fn).1) := by
  refine ⟨fileReadDir_zero, fileReadDir_neg, fileReadDir_pos, ?_, ?_⟩
  · intro fs fn c reqs
    exact runReadDir_join fs fn reqs c
  · intro fs fn reqs q hq
    obtain ⟨hj, hc1, hc2⟩ := runReadDir_join fs fn (reqs ++ [q]) 0
    have hfin : (runReadDir fs fn 0 (reqs ++ [q])).2 = (fsReadDir fs fn).1.length := by
      rw [runReadDir_snd_append]
      have hle : (runReadDir fs fn 0 reqs).2 ≤ (fsReadDir fs fn).1.length := by
        have := (runReadDir_join fs fn reqs 0).2.2
        omega
      show (fileReadDir fs fn (runReadDir fs fn 0 reqs).2 q).2.2 = _
      rw [fileReadDir_neg fs fn _ q hq]
      by_cases hl : (fsReadDir fs fn).1.length ≤ (runReadDir fs fn 0 reqs).2
      · show (if (fsReadDir fs fn).1.length ≤ _ then _ else _) = _
        rw [if_pos hl]
        omega
      · show (if (fsReadDir fs fn).1.length ≤ _ then _ else _) = _
        rw [if_neg hl]
    rw [hfin] at hj
    rw [hj]
    simp

/-- C9 witness: the `n < 0` characterization and the full-listing
concatenation of `c9_readdir_pagination` applied at a concrete archive. -/
theorem c9_witness :
    fileReadDir exPageFS "." 1 (-1)
      = ((fsReadDir exPageFS ".").1.drop 1, none,
         if (fsReadDir exPageFS ".").1.length ≤ 1 then 1
         else (fsReadDir exPageFS ".").1.length)
    ∧ (runReadDir exPageFS "." 0 ([2] ++ [-1])).1.flatten = (fsReadDir exPageFS ".").1 := by
  constructor
  · exact c9_readdir_pagination.2.1 exPageFS "." 1 (-1) (by decide)
  · exact c9_readdir_pagination.2.2.2.2 exPageFS "." [2] (-1) (by decide)

/-- C10: `FS.ReadDir` never returns an error, and for every name that is
not the parent directory of any indexed entry — names absent from the
archive and names of regular files included — it returns the empty list
with a nil error rather than `NotFound`. -/
theorem c10_readdir_no_error :
    ∀ (hdrs : List (TarHdr × Int)) (name : String),
      (fsReadDir (tarfsNew hdrs) name).2 = none
      ∧ ((∀ p ∈ hdrs, (mkEntry p.1 p.2).dir ≠ name) →
          fsReadDir (tarfsNew hdrs) name = ([], none)) := by
  intro hdrs name
  rw [fsReadDir_tarfsNew]
  refine ⟨rfl, ?_⟩
  intro hnp
  have hf : ((hdrs.map fun p => mkEntry p.1 p.2).filter fun e => e.dir = name) = [] := by
    rw [List.filter_eq_nil_iff]
    intro e he
    rw [List.mem_map] at he
    obtain ⟨p, hp, rfl⟩ := he
    simpa using hnp p hp
  rw [hf]
  rfl

/-- C10 witness: `c10_readdir_no_error` applied to a concrete archive and
a concrete non-parent name (a regular file's own path). -/
theorem c10_witness : fsReadDir exLoneFS "top/file" = ([], none) := by
  refine (c10_readdir_no_error
    [({name := "top", typeflag := TypeFlag.dir, linkname := ""}, 0),
     ({name := "top/file", typeflag := TypeFlag.reg, linkname := ""}, 512)]
    "top/file").2 ?_
  decide

/-! ### Preservation of the checkpoint invariant by decoder steps (C5) -/

/-- `Pres` is reflexive. -/
theorem pres_refl (f : Decomp) : Pres f f :=
  ⟨Eq.refl _, Eq.refl _, le_refl _, fun _ => le_refl _, fun _ => Eq.refl _, fun _ h => h⟩

/-- `Pres` composes. -/
theorem Pres.trans {f g h : Decomp} (h1 : Pres f g) (h2 : Pres g h) : Pres f h := by
  obtain ⟨a1, b1, c1, d1, e1, i1⟩ := h1
  obtain ⟨a2, b2, c2, d2, e2, i2⟩ := h2
  refine ⟨a2.trans a1, b2.trans b1, c1.trans c2, ?_, ?_, fun cks hc => i2 cks (i1 cks hc)⟩
  · intro hs
    exact le_trans (d1 hs) (d2 (by rw [a1]; exact hs))
  · intro hu
    exact (e2 (b1.trans hu)).trans (e1 hu)

/-- Operations that keep `span`, `updates`, `last` and `emitted` and only
move the compressed cursor forward preserve everything. -/
theorem pres_fields (f g : Decomp) (hsp : g.span = f.span) (hup : g.updates = f.updates)
    (hro : f.roffset ≤ g.roffset) (hla : g.last = f.last) (hem : g.emitted = f.emitted) :
    Pres f g := by
  refine ⟨hsp, hup, hro, fun _ => le_of_eq hla.symm, fun _ => hem, ?_⟩
  intro cks hc
  obtain ⟨h1, h2, h3⟩ := hc
  refine ⟨by rw [hem]; exact h1, ?_, by rw [hsp]; exact h3⟩
  intro ck hck
  rw [hem] at hck
  obtain ⟨o1, o2⟩ := h2 ck hck
  exact ⟨hla ▸ o1, le_trans o2 hro⟩

/-- An emission step preserves the invariant: the fresh checkpoint sits
at the new watermark `woff`, strictly past every previous one. -/
theorem pres_emit {f g : Decomp} {ck : Checkpoint} {woff : Int}
    (hsp : g.span = f.span) (hup : g.updates = f.updates) (hro : g.roffset = f.roffset)
    (hla : g.last = woff) (hem : g.emitted = f.emitted ++ [ck])
    (hout : ck.Out = woff) (hin : ck.In = f.roffset)
    (hu : f.updates = true) (hguard : f.span < woff - f.last) : Pres f g := by
  refine ⟨hsp, hup, le_of_eq hro.symm, ?_, ?_, ?_⟩
  · intro hs
    rw [hla]
    omega
  · intro hfu
    rw [hu] at hfu
    cases hfu
  · intro cks hc
    obtain ⟨hch, hbd, hspn⟩ := hc
    have hlt : f.last < woff := by omega
    refine ⟨?_, ?_, by rw [hsp]; exact hspn⟩
    · rw [hem, ← List.append_assoc]
      refine List.Chain'.append hch (List.chain'_singleton ck) ?_
      intro x hx y hy
      obtain ⟨hne, rfl⟩ := List.mem_getLast?_eq_getLast hx
      have hxm : (cks ++ f.emitted).getLast hne ∈ cks ++ f.emitted := List.getLast_mem hne
      obtain ⟨o1, o2⟩ := hbd _ hxm
      simp only [List.head?_cons, Option.mem_def, Option.some.injEq] at hy
      subst hy
      exact ⟨by omega, by rw [hin]; exact o2⟩
    · intro ck2 hck2
      rw [hem, ← List.append_assoc] at hck2
      rcases List.mem_append.mp hck2 with hold | hnew
      · obtain ⟨o1, o2⟩ := hbd _ hold
        exact ⟨by omega, by rw [hro]; exact o2⟩
      · simp only [List.mem_singleton] at hnew
        subst hnew
        exact ⟨by omega, by rw [hro, hin]⟩

/-- Reading one byte advances only the input cursor. -/
theorem readByteF_pres {f : Decomp} {c : Nat} {f' : Decomp}
    (h : readByteF f = some (c, f')) : Pres f f' := by
  unfold readByteF at h
  split at h
  · cases h
    exact pres_fields _ _ rfl rfl (le_refl _) rfl rfl
  · cases h

/-- `moreBits` preserves the invariant. -/
theorem moreBits_pres (f : Decomp) : Pres f (moreBits f).1 := by
  unfold moreBits
  rcases h : readByteF f with _ | ⟨c, f1⟩ <;> dsimp only
  · exact pres_refl f
  · exact Pres.trans (readByteF_pres h)
      (pres_fields _ _ rfl rfl (le_add_of_nonneg_right zero_le_one) rfl rfl)

/-- The `ensureBits` loop preserves the invariant. -/
theorem ensureBitsGo_pres (n : Nat) :
    ∀ (fuel : Nat) (f : Decomp), Pres f (ensureBitsGo n fuel f).1 := by
  intro fuel
  induction fuel with
  | zero => intro f; exact pres_refl f
  | succ m ih =>
    intro f
    unfold ensureBitsGo
    split
    · have hm := moreBits_pres f
      rcases h : moreBits f with ⟨f1, e1⟩
      rw [h] at hm
      rcases e1 with _ | e <;> dsimp only at hm ⊢
      · exact Pres.trans hm (ih f1)
      · exact hm
    · exact pres_refl f

/-- `ensureBits` preserves the invariant. -/
theorem ensureBits_pres (f : Decomp) (n : Nat) : Pres f (ensureBits f n).1 :=
  ensureBitsGo_pres n n f

/-- The `huffSym` loop preserves the invariant. -/
theorem huffSymGo_pres (h : HuffDec) :
    ∀ (fuel : Nat) (f : Decomp) (n b nb : Nat), Pres f (huffSymGo h fuel f n b nb).1 := by
  intro fuel
  induction fuel with
  | zero => intro f n b nb; exact pres_fields _ _ rfl rfl (le_refl _) rfl rfl
  | succ m ih =>
    intro f n b nb
    unfold huffSymGo
    split
    · rcases hr : readByteF f with _ | ⟨c, f1⟩ <;> dsimp only
      · exact pres_fields _ _ rfl rfl (le_refl _) rfl rfl
      · exact Pres.trans
          (Pres.trans (readByteF_pres hr)
            (pres_fields f1 { f1 with roffset := f1.roffset + 1 } rfl rfl
              (le_add_of_nonneg_right zero_le_one) rfl rfl))
          (ih _ _ _ _)
    · dsimp only
      split <;> split <;>
        first
          | exact ih _ _ _ _
          | (split <;> exact pres_fields _ _ rfl rfl (le_refl _) rfl rfl)

/-- `huffSym` preserves the invariant. -/
theorem huffSym_pres (f : Decomp) (h : HuffDec) : Pres f (huffSym f h).1 :=
  huffSymGo_pres h 8 f h.min f.b f.nb

/-- `finishBlock` preserves the invariant: no emission leaves the
checkpoints alone; an emission appends one at the fresh watermark. -/
theorem finishBlock_pres (f : Decomp) : Pres f (finishBlock f) := by
  unfold finishBlock
  by_cases hf : f.final = true <;> by_cases hr : 0 < f.dict.availRead <;>
    simp only [hf, hr, if_true, if_false, ite_true, ite_false, and_true, and_false,
      true_and, false_and, eq_self_iff_true, Bool.false_eq_true, not_true, not_false_iff,
      decide_eq_true_eq] <;>
    split <;>
    first
      | (rename_i hg
         obtain ⟨hu, hlt⟩ := hg
         exact pres_emit rfl rfl rfl rfl rfl rfl rfl hu hlt)
      | exact pres_fields _ _ rfl rfl (le_refl _) rfl rfl

/-- `readLenExtra` preserves the invariant. -/
theorem readLenExtra_pres (f : Decomp) (length0 n : Nat) :
    Pres f (readLenExtra f length0 n).1 := by
  unfold readLenExtra
  split
  · have he := ensureBits_pres f n
    rcases h : ensureBits f n with ⟨f2, e1⟩
    rw [h] at he
    rcases e1 with _ | e <;> dsimp only at he ⊢
    · exact Pres.trans he (pres_fields _ _ rfl rfl (le_refl _) rfl rfl)
    · exact he
  · exact pres_refl f

/-- `readDistSym` preserves the invariant. -/
theorem readDistSym_pres (f : Decomp) : Pres f (readDistSym f).1 := by
  unfold readDistSym
  split
  · have he := ensureBits_pres f 5
    rcases h : ensureBits f 5 with ⟨f3, e1⟩
    rw [h] at he
    rcases e1 with _ | e <;> dsimp only at he ⊢
    · exact Pres.trans he (pres_fields _ _ rfl rfl (le_refl _) rfl rfl)
    · exact he
  · exact huffSym_pres f f.h2

/-- `readDistExtra` preserves the invariant. -/
theorem readDistExtra_pres (f : Decomp) (dist0 : Nat) :
    Pres f (readDistExtra f dist0).1 := by
  unfold readDistExtra
  split
  · exact pres_refl f
  · split
    · dsimp only
      have he := ensureBits_pres f ((dist0 - 2) >>> 1)
      rcases h : ensureBits f ((dist0 - 2) >>> 1) with ⟨f4, e1⟩
      rw [h] at he
      rcases e1 with _ | e <;> dsimp only at he ⊢
      · exact Pres.trans he (pres_fields _ _ rfl rfl (le_refl _) rfl rfl)
      · exact he
    · exact pres_refl f

/-- `copyData` preserves the invariant. -/
theorem copyData_pres (f : Decomp) : Pres f (copyData f) := by
  unfold copyData
  dsimp only
  split
  · exact pres_fields _ _ rfl rfl (le_add_of_nonneg_right (Int.natCast_nonneg _)) rfl rfl
  · split
    · exact pres_fields _ _ rfl rfl (le_add_of_nonneg_right (Int.natCast_nonneg _)) rfl rfl
    · refine Pres.trans ?_ (finishBlock_pres _)
      exact pres_fields _ _ rfl rfl (le_add_of_nonneg_right (Int.natCast_nonneg _)) rfl rfl

/-- `dataBlock` preserves the invariant. -/
theorem dataBlock_pres (f : Decomp) : Pres f (dataBlock f) := by
  unfold dataBlock
  dsimp only
  split
  · exact pres_fields _ _ rfl rfl (le_add_of_nonneg_right (Int.natCast_nonneg _)) rfl rfl
  · split
    · exact pres_fields _ _ rfl rfl (le_add_of_nonneg_right (Int.natCast_nonneg _)) rfl rfl
    · split
      · refine Pres.trans ?_ (finishBlock_pres _)
        exact pres_fields _ _ rfl rfl (le_add_of_nonneg_right (Int.natCast_nonneg _)) rfl rfl
      · refine Pres.trans ?_ (copyData_pres _)
        exact pres_fields _ _ rfl rfl (le_add_of_nonneg_right (Int.natCast_nonneg _)) rfl rfl

/-- The `huffmanBlock` state machine preserves the invariant. -/
theorem hbRun_pres : ∀ (fuel : Nat) (lit : Bool) (f : Decomp), Pres f (hbRun fuel lit f) := by
  intro fuel
  induction fuel with
  | zero => intro lit f; cases lit <;> exact pres_fields _ _ rfl rfl (le_refl _) rfl rfl
  | succ m ih =>
    intro lit f
    cases lit
    · unfold hbRun
      dsimp only
      split <;> split <;>
        first
          | exact pres_fields _ _ rfl rfl (le_refl _) rfl rfl
          | (refine Pres.trans ?_ (ih true _)
             exact pres_fields _ _ rfl rfl (le_refl _) rfl rfl)
    · unfold hbRun
      dsimp only
      have hs := huffSym_pres f (if f.hlFixed then fixedHuffmanDecoder else f.h1)
      rcases hh : huffSym f (if f.hlFixed then fixedHuffmanDecoder else f.h1) with ⟨f1, v | e⟩ <;>
        rw [hh] at hs <;> dsimp only at hs ⊢
      · split
        · split
          · exact Pres.trans hs (pres_fields _ _ rfl rfl (le_refl _) rfl rfl)
          · refine Pres.trans ?_ (ih true _)
            exact Pres.trans hs (pres_fields _ _ rfl rfl (le_refl _) rfl rfl)
        · split
          · exact Pres.trans hs (finishBlock_pres f1)
          · split
            · exact Pres.trans hs (pres_fields _ _ rfl rfl (le_refl _) rfl rfl)
            · have hl := readLenExtra_pres f1 (lenCode v).1 (lenCode v).2
              rcases h2 : readLenExtra f1 (lenCode v).1 (lenCode v).2 with ⟨f2, e2, len⟩
              rw [h2] at hl
              rcases e2 with _ | e2 <;> dsimp only at hl ⊢
              · have hd := readDistSym_pres f2
                rcases h3 : readDistSym f2 with ⟨f3, d0 | e3⟩ <;>
                  rw [h3] at hd <;> dsimp only at hd ⊢
                · have hx := readDistExtra_pres f3 d0
                  rcases h4 : readDistExtra f3 d0 with ⟨f4, dist | e4⟩ <;>
                    rw [h4] at hx <;> dsimp only at hx ⊢
                  · split
                    · exact Pres.trans hs (Pres.trans hl (Pres.trans hd (Pres.trans hx
                        (pres_fields _ _ rfl rfl (le_refl _) rfl rfl))))
                    · refine Pres.trans ?_ (ih false _)
                      exact Pres.trans hs (Pres.trans hl (Pres.trans hd (Pres.trans hx
                        (pres_fields _ _ rfl rfl (le_refl _) rfl rfl))))
                  · exact Pres.trans hs (Pres.trans hl (Pres.trans hd (Pres.trans hx
                      (pres_fields _ _ rfl rfl (le_refl _) rfl rfl))))
                · exact Pres.trans hs (Pres.trans hl (Pres.trans hd
                    (pres_fields _ _ rfl rfl (le_refl _) rfl rfl)))
              · exact Pres.trans hs (Pres.trans hl
                  (pres_fields _ _ rfl rfl (le_refl _) rfl rfl))
      · exact Pres.trans hs (pres_fields _ _ rfl rfl (le_refl _) rfl rfl)

/-- `huffmanBlock` preserves the invariant. -/
theorem huffmanBlock_pres (f : Decomp) : Pres f (huffmanBlock f) := by
  unfold huffmanBlock
  split <;> exact hbRun_pres hbFuel _ f

/-- The HCLEN loop preserves the invariant. -/
theorem readCodebitsGo_pres (nclen : Nat) :
    ∀ (fuel : Nat) (f : Decomp) (i : Nat), Pres f (readCodebitsGo nclen fuel f i).1 := by
  intro fuel
  induction fuel with
  | zero => intro f i; exact pres_refl f
  | succ m ih =>
    intro f i
    unfold readCodebitsGo
    split
    · have he := ensureBits_pres f 3
      rcases h : ensureBits f 3 with ⟨f1, e1⟩
      rw [h] at he
      rcases e1 with _ | e <;> dsimp only at he ⊢
      · refine Pres.trans ?_ (ih _ _)
        exact Pres.trans he (pres_fields _ _ rfl rfl (le_refl _) rfl rfl)
      · exact he
    · exact pres_refl f

/-- The HLIT+HDIST code-length loop preserves the invariant. -/
theorem readLengthsGo_pres (n : Nat) :
    ∀ (fuel : Nat) (f : Decomp) (i : Nat), Pres f (readLengthsGo n fuel f i).1 := by
  intro fuel
  induction fuel with
  | zero => intro f i; exact pres_refl f
  | succ m ih =>
    intro f i
    unfold readLengthsGo
    split
    · have hs := huffSym_pres f f.h1
      rcases hh : huffSym f f.h1 with ⟨f1, x | e⟩ <;> rw [hh] at hs <;> dsimp only at hs ⊢
      · split
        · refine Pres.trans ?_ (ih _ _)
          exact Pres.trans hs (pres_fields _ _ rfl rfl (le_refl _) rfl rfl)
        · split
          · exact hs
          · split
            · exact hs
            · have he := ensureBits_pres f1 (repParams x (f1.bits.getD (i - 1) 0)).2.1
              rcases h2 : ensureBits f1 (repParams x (f1.bits.getD (i - 1) 0)).2.1
                with ⟨f2, e2⟩
              rw [h2] at he
              rcases e2 with _ | e2 <;> (try dsimp only at he ⊢)
              · split
                · exact Pres.trans hs (Pres.trans he
                    (pres_fields _ _ rfl rfl (le_refl _) rfl rfl))
                · refine Pres.trans ?_ (ih _ _)
                  exact Pres.trans hs (Pres.trans he
                    (pres_fields _ _ rfl rfl (le_refl _) rfl rfl))
              · exact Pres.trans hs he
      · exact hs
    · exact pres_refl f

/-- Zeroing the remaining code-length slots preserves the invariant. -/
theorem zeroCodebits_pres (l : List Nat) : ∀ (f : Decomp),
    Pres f (l.foldl (fun g j => { g with codebits := g.codebits.set (codeOrder.getD j 0) 0 }) f) := by
  induction l with
  | nil => intro f; exact pres_refl f
  | cons a t ih =>
    intro f
    rw [List.foldl_cons]
    refine Pres.trans ?_ (ih _)
    exact pres_fields _ _ rfl rfl (le_refl _) rfl rfl

/-- `bindE` preserves the invariant when both parts do. -/
theorem bindE_pres {f : Decomp} {a : Decomp × Option Ferr} {k : Decomp → Decomp × Option Ferr}
    (h1 : Pres f a.1) (h2 : ∀ g, Pres g (k g).1) : Pres f (bindE a k).1 := by
  unfold bindE
  rcases a with ⟨g, _ | e⟩ <;> dsimp only at h1 ⊢
  · exact Pres.trans h1 (h2 g)
  · exact h1

/-- `initE` preserves the invariant when the continuation does. -/
theorem initE_pres {f : Decomp} {r : InitRes} {g : Decomp} {k : HuffDec → Decomp × Option Ferr}
    (h1 : Pres f g) (h2 : ∀ hd, Pres g (k hd).1) : Pres f (initE r g k).1 := by
  unfold initE
  rcases r with hd | _ | m <;> dsimp only
  · exact Pres.trans h1 (h2 hd)
  · exact h1
  · exact h1

/-- `readHuffman` preserves the invariant. -/
theorem readHuffman_pres (f : Decomp) : Pres f (readHuffman f).1 := by
  unfold readHuffman
  refine bindE_pres (ensureBits_pres f 14) ?_
  intro f0
  dsimp only
  split
  · exact pres_refl f0
  · split
    · exact pres_fields _ _ rfl rfl (le_refl _) rfl rfl
    · refine bindE_pres ?_ ?_
      · refine Pres.trans ?_ (readCodebitsGo_pres _ 20 _ 0)
        exact pres_fields _ _ rfl rfl (le_refl _) rfl rfl
      · intro f2
        dsimp only
        refine initE_pres (zeroCodebits_pres _ f2) ?_
        intro hmeta
        dsimp only
        refine bindE_pres ?_ ?_
        · refine Pres.trans ?_ (readLengthsGo_pres _ 700 _ 0)
          exact pres_fields _ _ rfl rfl (le_refl _) rfl rfl
        · intro f3
          dsimp only
          refine initE_pres (pres_refl f3) ?_
          intro hA
          refine initE_pres (pres_refl f3) ?_
          intro hB
          dsimp only
          exact pres_fields _ _ rfl rfl (le_refl _) rfl rfl

/-- The dynamic-block arm of `nextBlock` preserves the invariant. -/
theorem nbDyn_pres (g : Decomp) :
    Pres g (match readHuffman g with
      | (f3, some e) => { f3 with err := some e }
      | (f3, none) => huffmanBlock { f3 with hlFixed := false, hdNone := false }) := by
  have hr := readHuffman_pres g
  rcases hq : readHuffman g with ⟨f3, e3⟩
  rw [hq] at hr
  rcases e3 with _ | e3 <;> dsimp only at hr ⊢
  · refine Pres.trans hr ?_
    refine Pres.trans ?_ (huffmanBlock_pres _)
    exact pres_fields _ _ rfl rfl (le_refl _) rfl rfl
  · exact Pres.trans hr (pres_fields _ _ rfl rfl (le_refl _) rfl rfl)

/-- `nextBlock` preserves the invariant. -/
theorem nextBlock_pres (f : Decomp) : Pres f (nextBlock f) := by
  unfold nextBlock
  have he := ensureBits_pres f 3
  rcases h : ensureBits f 3 with ⟨f1, e1⟩
  rw [h] at he
  rcases e1 with _ | e <;> dsimp only at he ⊢
  · split
    · refine Pres.trans he ?_
      refine Pres.trans ?_ (dataBlock_pres _)
      exact pres_fields _ _ rfl rfl (le_refl _) rfl rfl
    · split
      · refine Pres.trans he ?_
        refine Pres.trans ?_ (huffmanBlock_pres _)
        exact pres_fields _ _ rfl rfl (le_refl _) rfl rfl
      · split
        · refine Pres.trans he ?_
          refine Pres.trans ?_ (nbDyn_pres _)
          exact pres_fields _ _ rfl rfl (le_refl _) rfl rfl
        · exact Pres.trans he (pres_fields _ _ rfl rfl (le_refl _) rfl rfl)
  · exact Pres.trans he (pres_fields _ _ rfl rfl (le_refl _) rfl rfl)

/-- One decoder step preserves the invariant. -/
theorem step1_pres (f : Decomp) : Pres f (step1 f) := by
  unfold step1
  split
  · exact nextBlock_pres f
  · exact huffmanBlock_pres f
  · exact copyData_pres f

/-- `Decompressor.Read` preserves the invariant. -/
theorem flateRead_pres : ∀ (fuel : Nat) (f : Decomp) (blen : Nat),
    Pres f (flateRead fuel f blen).2.2 := by
  intro fuel
  induction fuel with
  | zero => intro f blen; exact pres_refl f
  | succ m ih =>
    intro f blen
    unfold flateRead
    dsimp only
    split
    · split
      · exact pres_fields _ _ rfl rfl (le_refl _) rfl rfl
      · exact pres_fields _ _ rfl rfl (le_refl _) rfl rfl
    · split
      · exact pres_refl f
      · refine Pres.trans ?_ (ih _ _)
        split
        · refine Pres.trans (step1_pres f) ?_
          exact pres_fields _ _ rfl rfl (le_refl _) rfl rfl
        · refine Pres.trans (step1_pres f) ?_
          exact pres_fields _ _ rfl rfl (le_refl _) rfl rfl

/-! ### Preservation at the gzip and gsip layers (C5) -/

/-- One `gzip.Reader.Read` call preserves the flate invariant machinery. -/
theorem gzipRead_pres (flFuel : Nat) (g : GzipReader) (blen : Nat) :
    Pres g.flate (gzipRead flFuel g blen).2.2.flate := by
  unfold gzipRead
  split
  · exact pres_refl _
  · have hf := flateRead_pres flFuel g.flate blen
    rcases h : flateRead flFuel g.flate blen with ⟨out, e1, f1⟩
    rw [h] at hf
    rcases e1 with _ | e <;> dsimp only at hf ⊢
    · exact hf
    · split
      · split
        · exact Pres.trans hf (pres_fields _ _ rfl rfl (le_refl _) rfl rfl)
        · exact hf
      · exact hf

/-- `io.CopyN` discarding preserves the flate invariant machinery. -/
theorem copyNGo_pres : ∀ (fuel flFuel : Nat) (g : GzipReader) (rem : Nat),
    Pres g.flate (copyNGo fuel flFuel g rem).2.2.flate := by
  intro fuel
  induction fuel with
  | zero => intro _ g _; exact pres_refl _
  | succ m ih =>
    intro flFuel g rem
    unfold copyNGo
    split
    · exact pres_refl _
    · have hz := gzipRead_pres flFuel g rem
      rcases h : gzipRead flFuel g rem with ⟨out, e1, g1⟩
      rw [h] at hz
      rcases e1 with _ | e <;> dsimp only at hz ⊢
      · exact Pres.trans hz (ih flFuel g1 _)
      · split
        · exact hz
        · exact hz

/-- `io.ReadFull` preserves the flate invariant machinery. -/
theorem readFullG_pres : ∀ (fuel flFuel : Nat) (g : GzipReader) (need acc : Nat),
    Pres g.flate (readFullG fuel flFuel g need acc).2.2.flate := by
  intro fuel
  induction fuel with
  | zero => intro _ g _ _; exact pres_refl _
  | succ m ih =>
    intro flFuel g need acc
    unfold readFullG
    split
    · exact pres_refl _
    · have hz := gzipRead_pres flFuel g need
      rcases h : gzipRead flFuel g need with ⟨out, e1, g1⟩
      rw [h] at hz
      rcases e1 with _ | e <;> dsimp only at hz ⊢
      · exact Pres.trans hz (ih flFuel g1 _ _)
      · split
        · exact hz
        · split
          · exact hz
          · exact hz

/-- A channel-less, emission-free entry stays that way. -/
theorem pOkQ_of_pres {p q : GzipReader × Bool} (h : Pres p.1.flate q.1.flate)
    (hq : pOkQ p) : pOkQ q :=
  ⟨h.2.1.trans hq.1, (h.2.2.2.2.1 hq.1).trans hq.2⟩

/-- A well-formed pool entry stays well-formed under a decoder step. -/
theorem pOkF_of_pres {cks : List Checkpoint} {p q : GzipReader × Bool}
    (h : Pres p.1.flate q.1.flate) (hf : pOkF cks p) : pOkF cks q :=
  hf.elim (fun hq => Or.inl (pOkQ_of_pres h hq))
    (fun hi => Or.inr (h.2.2.2.2.2 _ hi))

/-- The fallback pool entry is channel-less and emission-free. -/
theorem pOkQ_dumRdr : pOkQ dumRdr :=
  ⟨rfl, rfl⟩

/-- `findIdx?` returns an index within bounds whose element satisfies the
predicate, and everything before it does not. -/
theorem findIdx?_some_spec {α : Type} (p : α → Bool) :
    ∀ (l : List α) (s i : Nat), List.findIdx? p l s = some i →
      s ≤ i ∧ ∃ h : i - s < l.length, p (l.get ⟨i - s, h⟩) = true ∧
        ∀ j, j < i - s → ∀ hl : j < l.length, p (l.get ⟨j, hl⟩) = false := by
  intro l
  induction l with
  | nil => intro s i h; simp [List.findIdx?] at h
  | cons a t ih =>
    intro s i h
    rw [List.findIdx?_cons] at h
    by_cases hp : p a = true
    · rw [if_pos hp] at h
      cases h
      refine ⟨le_refl _, ?_⟩
      refine ⟨by simp, ?_, ?_⟩
      · simpa using hp
      · intro j hj
        omega
    · rw [if_neg hp] at h
      obtain ⟨hsi, hlt, hpi, hmin⟩ := ih (s + 1) i h
      have hord : i - s = (i - (s + 1)) + 1 := by omega
      refine ⟨by omega, ?_⟩
      refine ⟨by simp; omega, ?_, ?_⟩
      · rw [List.get_eq_getElem]
        simp only [hord, List.getElem_cons_succ]
        rw [List.get_eq_getElem] at hpi
        exact hpi
      · intro j hj hjl
        rcases j with _ | j2
        · simpa using Bool.not_eq_true _ |>.mp hp
        · rw [List.get_eq_getElem]
          simp only [List.getElem_cons_succ]
          have := hmin j2 (by omega) (by simpa using hjl)
          rw [List.get_eq_getElem] at this
          exact this

/-- `getD` at an in-range index is `get`. -/
theorem getD_eq_get {α : Type} (l : List α) (d : α) (i : Nat) (h : i < l.length) :
    l.getD i d = l.get ⟨i, h⟩ := by
  simp [List.getD_eq_getElem?_getD, List.getElem?_eq_getElem h, List.get_eq_getElem]

/-- Replacing a pool entry by a decoder one or more steps downstream of it
preserves the pool invariant. -/
theorem invg_set (r : GsipReader) (i : Nat) (g' : GzipReader) (b' : Bool)
    (hp : ∀ h : i < r.readers.length, Pres (r.readers.get ⟨i, h⟩).1.flate g'.flate)
    (hi : InvG r) : InvG { r with readers := r.readers.set i (g', b') } := by
  obtain ⟨hch, k, hk⟩ := hi
  refine ⟨hch, k, ?_⟩
  intro j hj
  have hj' : j < r.readers.length := by simpa using hj
  by_cases hij : j = i
  · subst hij
    have hget : (r.readers.set j (g', b')).get ⟨j, hj⟩ = (g', b') := by
      rw [List.get_eq_getElem]
      exact List.getElem_set_self (by simpa using hj)
    rw [hget]
    have hk' := hk j hj'
    have hpj := hp hj'
    by_cases hjk : j = k
    · rw [if_pos hjk] at hk' ⊢
      exact pOkF_of_pres hpj hk'
    · rw [if_neg hjk] at hk' ⊢
      exact pOkQ_of_pres hpj hk'
  · have hget : (r.readers.set i (g', b')).get ⟨j, hj⟩ = r.readers.get ⟨j, hj'⟩ := by
      rw [List.get_eq_getElem, List.get_eq_getElem]
      exact List.getElem_set_ne (fun hh => hij hh.symm) (by simpa using hj')
    rw [hget]
    exact hk j hj'

/-- Appending a channel-less, emission-free decoder to the pool preserves
the pool invariant. -/
theorem invg_append (r : GsipReader) (g' : GzipReader) (hq : pOkQ (g', false))
    (hi : InvG r) : InvG { r with readers := r.readers ++ [(g', false)] } := by
  obtain ⟨hch, k, hk⟩ := hi
  refine ⟨hch, k, ?_⟩
  intro j hj
  by_cases hjl : j < r.readers.length
  · have hget : (r.readers ++ [(g', false)]).get ⟨j, hj⟩ = r.readers.get ⟨j, hjl⟩ := by
      rw [List.get_eq_getElem, List.get_eq_getElem]
      exact List.getElem_append_left hjl
    rw [hget]
    exact hk j hjl
  · have hj2 : j < r.readers.length + 1 := by simpa using hj
    have hje : j = r.readers.length := by omega
    have hget : (r.readers ++ [(g', false)]).get ⟨j, hj⟩ = (g', false) := by
      rw [List.get_eq_getElem]
      exact List.getElem_concat_length _ _ _ hje (by simpa using hj)
    rw [hget]
    by_cases hjk : j = k
    · rw [if_pos hjk]
      exact Or.inl hq
    · rw [if_neg hjk]
      exact hq

/-- Releasing a decoder downstream of pool entry `i` back into slot `i`
preserves the pool invariant, transferring its pending checkpoints. -/
theorem invg_release (r : GsipReader) (i : Nat) (g' : GzipReader)
    (hp : Pres (r.readers.getD i dumRdr).1.flate g'.flate)
    (hi : InvG r) : InvG (releaseAt r i g') := by
  obtain ⟨hch, k, hk⟩ := hi
  by_cases hlt : i < r.readers.length
  · have hgd : r.readers.getD i dumRdr = r.readers.get ⟨i, hlt⟩ := getD_eq_get _ _ _ hlt
    rw [hgd] at hp
    have hki := hk i hlt
    by_cases hik : i = k
    · rw [if_pos hik] at hki
      rcases hki with hq | hinv
      · have hem : g'.flate.emitted = [] := (hp.2.2.2.2.1 hq.1).trans hq.2
        have hupd' : g'.flate.updates = false := hp.2.1.trans hq.1
        unfold releaseAt
        rw [hem, List.append_nil]
        refine ⟨hch, k, ?_⟩
        intro j hj
        have hj' : j < r.readers.length := by simpa using hj
        by_cases hij : j = i
        · subst hij
          have hget : (r.readers.set j ({ g' with flate := { g'.flate with emitted := [] } },
              true)).get ⟨j, hj⟩ =
              ({ g' with flate := { g'.flate with emitted := [] } }, true) := by
            rw [List.get_eq_getElem]
            exact List.getElem_set_self (by simpa using hj)
          rw [hget, if_pos hik]
          exact Or.inl ⟨hupd', rfl⟩
        · have hget : (r.readers.set i ({ g' with flate := { g'.flate with emitted := [] } },
              true)).get ⟨j, hj⟩ = r.readers.get ⟨j, hj'⟩ := by
            rw [List.get_eq_getElem, List.get_eq_getElem]
            exact List.getElem_set_ne (fun hh => hij hh.symm) (by simpa using hj')
          rw [hget]
          exact hk j hj'
      · have hinv' := hp.2.2.2.2.2 _ hinv
        obtain ⟨hc1, hc2, hc3⟩ := hinv'
        unfold releaseAt
        refine ⟨hc1, i, ?_⟩
        intro j hj
        have hj' : j < r.readers.length := by simpa using hj
        by_cases hij : j = i
        · subst hij
          have hget : (r.readers.set j ({ g' with flate := { g'.flate with emitted := [] } },
              true)).get ⟨j, hj⟩ =
              ({ g' with flate := { g'.flate with emitted := [] } }, true) := by
            rw [List.get_eq_getElem]
            exact List.getElem_set_self (by simpa using hj)
          rw [hget, if_pos rfl]
          refine Or.inr ⟨?_, ?_, ?_⟩
          · rw [List.append_nil]
            exact hc1
          · intro ck hck
            rw [List.append_nil] at hck
            exact hc2 ck hck
          · exact hc3
        · have hget : (r.readers.set i ({ g' with flate := { g'.flate with emitted := [] } },
              true)).get ⟨j, hj⟩ = r.readers.get ⟨j, hj'⟩ := by
            rw [List.get_eq_getElem, List.get_eq_getElem]
            exact List.getElem_set_ne (fun hh => hij hh.symm) (by simpa using hj')
          rw [hget, if_neg hij]
          have hkj := hk j hj'
          rw [if_neg (fun h => hij (h.trans hik.symm))] at hkj
          exact hkj
    · rw [if_neg hik] at hki
      have hem : g'.flate.emitted = [] := (hp.2.2.2.2.1 hki.1).trans hki.2
      have hupd' : g'.flate.updates = false := hp.2.1.trans hki.1
      unfold releaseAt
      rw [hem, List.append_nil]
      refine ⟨hch, k, ?_⟩
      intro j hj
      have hj' : j < r.readers.length := by simpa using hj
      by_cases hij : j = i
      · subst hij
        have hget : (r.readers.set j ({ g' with flate := { g'.flate with emitted := [] } },
            true)).get ⟨j, hj⟩ =
            ({ g' with flate := { g'.flate with emitted := [] } }, true) := by
          rw [List.get_eq_getElem]
          exact List.getElem_set_self (by simpa using hj)
        rw [hget, if_neg hik]
        exact ⟨hupd', rfl⟩
      · have hget : (r.readers.set i ({ g' with flate := { g'.flate with emitted := [] } },
            true)).get ⟨j, hj⟩ = r.readers.get ⟨j, hj'⟩ := by
          rw [List.get_eq_getElem, List.get_eq_getElem]
          exact List.getElem_set_ne (fun hh => hij hh.symm) (by simpa using hj')
        rw [hget]
        exact hk j hj'
  · have hgd : r.readers.getD i dumRdr = dumRdr := by
      rw [List.getD_eq_getElem?_getD, List.getElem?_eq_none (by omega)]
      rfl
    rw [hgd] at hp
    have hem : g'.flate.emitted = [] := (hp.2.2.2.2.1 rfl).trans rfl
    unfold releaseAt
    rw [hem, List.append_nil, List.set_eq_of_length_le (by omega)]
    exact ⟨hch, k, hk⟩

/-- `acquireReader` preserves the pool invariant on every path. -/
theorem acquireReader_invg (fuel : Nat) (r : GsipReader) (off : Int)
    (hi : InvG r) : InvG (acquireReader fuel r off).1 := by
  unfold acquireReader
  split
  · rename_i i hfnd
    exact invg_set r i _ false
      (fun h => by rw [getD_eq_get _ _ _ h]; exact pres_refl _) hi
  · rename_i hfnd
    split
    · rename_i hhc
      split
      · rename_i i hfnd2
        dsimp only
        split
        · rename_i w e zr1 hcpeq
          refine invg_set r i zr1 false (fun h => ?_) hi
          have hcp := copyNGo_pres fuel fuel (r.readers.getD i dumRdr).1
            (off - (r.readers.getD i dumRdr).1.offset).toNat
          rw [hcpeq] at hcp
          rw [getD_eq_get _ _ _ h] at hcp
          exact hcp
        · rename_i w zr1 hcpeq
          refine invg_set r i zr1 false (fun h => ?_) hi
          have hcp := copyNGo_pres fuel fuel (r.readers.getD i dumRdr).1
            (off - (r.readers.getD i dumRdr).1.offset).toNat
          rw [hcpeq] at hcp
          rw [getD_eq_get _ _ _ h] at hcp
          exact hcp
      · rename_i hfnd2
        exact hi
    · rename_i hck hhc
      dsimp only
      split
      · rename_i w e zr1 hcpeq
        exact hi
      · rename_i w zr1 hcpeq
        refine invg_append r zr1 ?_ hi
        have hcp := copyNGo_pres fuel fuel (gzipContinue r.src hck) (off - hck.Out).toNat
        rw [hcpeq] at hcp
        exact @pOkQ_of_pres (gzipContinue r.src hck, false) (zr1, false) hcp ⟨rfl, rfl⟩

/-- `ReadAt` preserves the pool invariant. -/
theorem gsipReadAt_invg (fuel : Nat) (r : GsipReader) (off : Int) (blen : Nat)
    (hi : InvG r) : InvG (gsipReadAt fuel r off blen).2.2 := by
  unfold gsipReadAt
  have ha := acquireReader_invg fuel r off hi
  rcases h1 : acquireReader fuel r off with ⟨r1, e⟩
  rw [h1] at ha
  rcases e with e | i <;> dsimp only
  · exact ha
  · have hrf := readFullG_pres (blen + 1) fuel (r1.readers.getD i dumRdr).1 blen 0
    rcases h2 : readFullG (blen + 1) fuel (r1.readers.getD i dumRdr).1 blen 0
      with ⟨out, e2, zr1⟩
    rw [h2] at hrf
    dsimp only
    exact invg_release r1 i zr1 hrf ha

/-- Any sequence of `ReadAt` requests preserves the pool invariant. -/
theorem invg_runReads (fuel : Nat) : ∀ (reqs : List (Int × Nat)) (r : GsipReader),
    InvG r → InvG (runReads fuel r reqs) := by
  intro reqs
  induction reqs with
  | nil => intro r h; exact h
  | cons q t ih =>
    intro r h
    have hstep : runReads fuel r (q :: t) =
        runReads fuel (gsipReadAt fuel r q.1 q.2).2.2 t := rfl
    rw [hstep]
    exact ih _ (gsipReadAt_invg fuel r q.1 q.2 h)

/-- A freshly constructed gsip reader satisfies the pool invariant: the
single member-start checkpoint is ordered, and the frontier decoder is in
`InvC` with it. -/
theorem invg_new (src : List Nat) (r0 : GsipReader) (h0 : gsipNewReader src = some r0) :
    InvG r0 := by
  unfold gsipNewReader gzipNewReader at h0
  rcases hp : parseGzipHeader src with _ | hl
  · rw [hp] at h0
    exact absurd h0 (by simp)
  · rw [hp] at h0
    dsimp only at h0
    injection h0 with h0
    subst h0
    refine ⟨List.chain'_singleton _, 0, ?_⟩
    intro i hil
    have hi0 : i = 0 := by
      simp only [List.length_singleton] at hil
      omega
    subst hi0
    rw [if_pos rfl]
    dsimp only [List.get, flateNewWithSpans]
    refine Or.inr ⟨?_, ?_, ?_⟩
    · rw [List.append_nil]
      exact List.chain'_singleton _
    · intro ck hck
      rw [List.append_nil, List.mem_singleton] at hck
      subst hck
      exact ⟨Int.natCast_nonneg hl, le_refl _⟩
    · norm_num [defaultSpan]

/-! ### Read-length accounting (C6) -/

/-- A flate read returns at most the requested number of bytes. -/
theorem flateRead_len : ∀ (fuel : Nat) (f : Decomp) (blen : Nat),
    (flateRead fuel f blen).1.length ≤ blen := by
  intro fuel
  induction fuel with
  | zero =>
    intro f blen
    simp [flateRead]
  | succ m ih =>
    intro f blen
    unfold flateRead
    split
    · dsimp only
      split <;> · simp only [List.length_take]; omega
    · split
      · simp
      · exact ih _ _

/-- A gzip read returns at most the requested number of bytes. -/
theorem gzipRead_len (flFuel : Nat) (g : GzipReader) (blen : Nat) :
    (gzipRead flFuel g blen).1.length ≤ blen := by
  unfold gzipRead
  split
  · simp
  · have h := flateRead_len flFuel g.flate blen
    rcases hh : flateRead flFuel g.flate blen with ⟨out, e, f1⟩
    rw [hh] at h
    rcases e with _ | e <;> dsimp only at h ⊢
    · exact h
    · split
      · split <;> exact h
      · exact h

/-- `io.ReadFull` semantics: a `none` error means the buffer was filled
exactly; `eof` surfaces only with nothing accumulated and an empty
result; `unexpectedEof` only on a short result; never over-reads. -/
theorem readFullG_spec : ∀ (fuel flFuel : Nat) (g : GzipReader) (need acc : Nat),
    ((readFullG fuel flFuel g need acc).2.1 = none →
      (readFullG fuel flFuel g need acc).1.length = need) ∧
    ((readFullG fuel flFuel g need acc).2.1 = some Ferr.eof →
      acc = 0 ∧ (readFullG fuel flFuel g need acc).1 = []) ∧
    ((readFullG fuel flFuel g need acc).2.1 = some Ferr.unexpectedEof →
      (readFullG fuel flFuel g need acc).1.length < need) ∧
    (readFullG fuel flFuel g need acc).1.length ≤ need := by
  intro fuel
  induction fuel with
  | zero =>
    intro flFuel g need acc
    refine ⟨by simp [readFullG], by simp [readFullG], by simp [readFullG], by simp [readFullG]⟩
  | succ m ih =>
    intro flFuel g need acc
    unfold readFullG
    split
    · rename_i hneed
      exact ⟨fun _ => hneed.symm, by simp, by simp, by simp⟩
    · rename_i hneed
      have hlen := gzipRead_len flFuel g need
      rcases hgz : gzipRead flFuel g need with ⟨out, e1, g1⟩
      rw [hgz] at hlen
      dsimp only at hlen
      rcases e1 with _ | e <;> dsimp only
      · have hr := ih flFuel g1 (need - out.length) (acc + out.length)
        rcases hrec : readFullG m flFuel g1 (need - out.length) (acc + out.length)
          with ⟨o2, e2, g2⟩
        rw [hrec] at hr
        dsimp only at hr ⊢
        obtain ⟨h1, h2, h3, h4⟩ := hr
        refine ⟨?_, ?_, ?_, ?_⟩
        · intro he
          have := h1 he
          simp only [List.length_append]
          omega
        · intro he
          obtain ⟨ha, hb⟩ := h2 he
          have hout : out = [] := List.length_eq_zero.mp (by omega)
          subst hout
          subst hb
          exact ⟨by omega, rfl⟩
        · intro he
          have := h3 he
          simp only [List.length_append]
          omega
        · simp only [List.length_append]
          omega
      · split
        · rename_i hge
          exact ⟨fun _ => le_antisymm hlen hge, by simp, by simp, hlen⟩
        · rename_i hlt
          split
          · rename_i hguard
            refine ⟨by simp, by simp, ?_, hlen⟩
            intro _
            show out.length < need
            omega
          · rename_i hguard
            refine ⟨by simp, ?_, ?_, hlen⟩
            · intro he
              injection he with he
              have hz : acc + out.length = 0 := by
                by_contra hz
                exact hguard ⟨by omega, he⟩
              exact ⟨by omega, List.length_eq_zero.mp (show out.length = 0 by omega)⟩
            · intro _
              show out.length < need
              omega

/-! ### Acquire-path accounting (C3) -/

/-- A gzip read advances `Offset()` by exactly the bytes returned. -/
theorem gzipRead_offset (flFuel : Nat) (g : GzipReader) (blen : Nat) :
    (gzipRead flFuel g blen).2.2.offset =
      g.offset + ((gzipRead flFuel g blen).1.length : Int) := by
  unfold gzipRead
  split
  · simp
  · rcases hh : flateRead flFuel g.flate blen with ⟨out, e, f1⟩
    rcases e with _ | e <;> dsimp only
    split
    · split <;> rfl
    · rfl

/-- A successful `io.CopyN` discards exactly the requested count and
leaves the source advanced by exactly that amount. -/
theorem copyNGo_count : ∀ (fuel flFuel : Nat) (g : GzipReader) (rem : Nat),
    (copyNGo fuel flFuel g rem).2.1 = none →
    (copyNGo fuel flFuel g rem).1 = rem ∧
    (copyNGo fuel flFuel g rem).2.2.offset = g.offset + (rem : Int) := by
  intro fuel
  induction fuel with
  | zero =>
    intro flFuel g rem h
    simp [copyNGo] at h
  | succ m ih =>
    intro flFuel g rem
    unfold copyNGo
    split
    · rename_i h0
      intro _
      refine ⟨h0.symm, ?_⟩
      rw [h0]
      simp
    · rename_i h0
      have hlen := gzipRead_len flFuel g rem
      have hoff := gzipRead_offset flFuel g rem
      rcases hgz : gzipRead flFuel g rem with ⟨out, e1, g1⟩
      rw [hgz] at hlen hoff
      dsimp only at hlen hoff
      rcases e1 with _ | e <;> dsimp only
      · rcases hrec : copyNGo m flFuel g1 (rem - out.length) with ⟨c2, e2, g2⟩
        have hr := ih flFuel g1 (rem - out.length)
        rw [hrec] at hr
        dsimp only at hr ⊢
        intro hnone
        obtain ⟨hc, ho⟩ := hr hnone
        constructor
        · omega
        · rw [ho, hoff]
          omega
      · split
        · rename_i heq
          intro _
          refine ⟨heq.symm, ?_⟩
          rw [hoff, heq]
        · intro h
          simp at h

/-- When the checkpoint scan yields nothing, every checkpoint lies
strictly past `off` (given the checkpoint list is ordered). -/
theorem highestCk_none : ∀ (cks : List Checkpoint) (off : Int),
    List.Pairwise ckLt cks → highestCk cks off = none →
    ∀ c ∈ cks, off < c.Out := by
  intro cks
  induction cks with
  | nil =>
    intro off _ _ c hc
    simp at hc
  | cons hd rest ih =>
    intro off hs h c hc
    unfold highestCk at h
    obtain ⟨hhd, hrest⟩ := List.pairwise_cons.mp hs
    by_cases hlt : off < hd.Out
    · rcases List.mem_cons.mp hc with rfl | hcr
      · exact hlt
      · exact lt_trans hlt (hhd c hcr).1
    · rw [if_neg hlt] at h
      rcases hr : highestCk rest off with _ | c2 <;> rw [hr] at h <;> simp at h

/-- The checkpoint scan returns a member at or before `off` that is
maximal among such members (given the checkpoint list is ordered). -/
theorem highestCk_some : ∀ (cks : List Checkpoint) (off : Int) (ck : Checkpoint),
    List.Pairwise ckLt cks → highestCk cks off = some ck →
    ck ∈ cks ∧ ck.Out ≤ off ∧ ∀ c ∈ cks, c.Out ≤ off → c.Out ≤ ck.Out := by
  intro cks
  induction cks with
  | nil =>
    intro off ck _ h
    simp [highestCk] at h
  | cons hd rest ih =>
    intro off ck hs h
    unfold highestCk at h
    obtain ⟨hhd, hrest⟩ := List.pairwise_cons.mp hs
    by_cases hlt : off < hd.Out
    · rw [if_pos hlt] at h
      simp at h
    · rw [if_neg hlt] at h
      have hhdle : hd.Out ≤ off := not_lt.mp hlt
      rcases hr : highestCk rest off with _ | c2 <;> rw [hr] at h
      · injection h with h
        subst h
        refine ⟨List.mem_cons_self _ _, hhdle, ?_⟩
        intro c hc hcoff
        rcases List.mem_cons.mp hc with rfl | hcr
        · exact le_refl _
        · exact absurd (highestCk_none rest off hrest hr c hcr) (not_lt.mpr hcoff)
      · injection h with h
        subst h
        obtain ⟨hmem, hle, hmax⟩ := ih off c2 hrest hr
        refine ⟨List.mem_cons_of_mem _ hmem, hle, ?_⟩
        intro c hc hcoff
        rcases List.mem_cons.mp hc with rfl | hcr
        · exact le_of_lt (hhd c2 hmem).1
        · exact hmax c hcr hcoff

/-! ### Claim theorems C2 and C4 -/

/-- Flushing the pending window bytes returns exactly `availRead` bytes. -/
theorem readFlush_fst_length (d : DictDecoder) :
    (DictDecoder.readFlush d).1.length = d.availRead := by
  unfold DictDecoder.readFlush
  split <;> simp [DictDecoder.availRead]

/-- C2 (counterexample): in the `c2src` run with `span = 5` and a
checkpoint channel, the decoder reaches the inter-block boundary after the
second data block with the uncompressed position advanced *exactly* `span`
bytes since the last emission point — the spec's `≥ span` rule would emit
there — yet the decoder emits no checkpoint at that boundary nor anywhere
else in the whole stream: the source's guard is strictly `>`. -/
theorem c2_threshold_counterexample :
  c2mid.1 = List.replicate 5 65 ∧
  c2mid.2.2.woffset - c2mid.2.2.last = c2mid.2.2.span ∧
  c2mid.2.2.updates = true ∧ c2mid.2.2.emitted = [] ∧
  (flateRead 10 c2mid.2.2 100).1 = List.replicate 5 66 ∧
  (flateRead 10 c2mid.2.2 100).2.1 = some Ferr.eof ∧
  (flateRead 10 c2mid.2.2 100).2.2.emitted = [] := by
  exact ⟨rfl, rfl, rfl, rfl, rfl, rfl, rfl⟩

/-- C2 (amended): at an inter-block boundary a checkpoint is emitted iff
the updates channel is set and the uncompressed position has advanced
*strictly more than* `span` bytes since the previous emission; when one is
emitted it is appended with the current offsets, bit buffer, and the full
window history, and the emission point `last` moves to its `Out`. -/
theorem c2_emit_strict_threshold (f : Decomp) :
  ((finishBlock f).emitted ≠ f.emitted ↔
    (f.updates = true ∧ f.span < finishWoff f - f.last)) ∧
  (f.updates = true → f.span < finishWoff f - f.last →
    ∃ ck, (finishBlock f).emitted = f.emitted ++ [ck] ∧
      ck.In = f.roffset ∧ ck.Out = finishWoff f ∧ ck.B = f.b ∧ ck.NB = f.nb ∧
      ck.Hist = f.dict.hist ∧ (finishBlock f).last = finishWoff f) ∧
  (¬ (f.updates = true ∧ f.span < finishWoff f - f.last) →
    (finishBlock f).emitted = f.emitted ∧ (finishBlock f).last = f.last) := by
  have hax : ∀ (l : List Checkpoint) (a : Checkpoint), l ++ [a] ≠ l := by
    intro l a h
    simpa using congrArg List.length h
  have hflh : ∀ d : DictDecoder, (DictDecoder.readFlush d).2.hist = d.hist := by
    intro d
    unfold DictDecoder.readFlush
    split <;> rfl
  rcases hf : f.final with _ | _ <;> by_cases hr : 0 < f.dict.availRead <;>
    rcases hu : f.updates with _ | _ <;>
      by_cases hs : f.span < finishWoff f - f.last <;>
        simp only [finishWoff, hf, hr, eq_self_iff_true, Bool.false_eq_true, true_and,
          false_and, if_true, if_false, ite_true, ite_false] at hs ⊢ <;>
        simp [finishBlock, hf, hr, hu, hs, readFlush_fst_length, hflh, hax]

/-- C2 (witness for the amended theorem): the emitting case at the state
after the first flush of the `c2src` run with `span = 2`. -/
theorem c2_emit_witness :
  ∃ ck, (finishBlock (flateRead 10 (flateNewWithSpans c2src 2 0 true) 100).2.2).emitted
      = (flateRead 10 (flateNewWithSpans c2src 2 0 true) 100).2.2.emitted ++ [ck] ∧
    ck.In = (flateRead 10 (flateNewWithSpans c2src 2 0 true) 100).2.2.roffset ∧
    ck.Out = finishWoff (flateRead 10 (flateNewWithSpans c2src 2 0 true) 100).2.2 ∧
    ck.B = (flateRead 10 (flateNewWithSpans c2src 2 0 true) 100).2.2.b ∧
    ck.NB = (flateRead 10 (flateNewWithSpans c2src 2 0 true) 100).2.2.nb ∧
    ck.Hist = (flateRead 10 (flateNewWithSpans c2src 2 0 true) 100).2.2.dict.hist ∧
    (finishBlock (flateRead 10 (flateNewWithSpans c2src 2 0 true) 100).2.2).last
      = finishWoff (flateRead 10 (flateNewWithSpans c2src 2 0 true) 100).2.2 :=
  (c2_emit_strict_threshold _).2.1 (by rfl) (by decide)

/-- C4: a dynamic-Huffman block whose code-length assignment is incomplete
(here the meta coding assigns the single length 2, so `Σ 2^(-len) = 1/4`)
does not yield a `Corrupt` error as the spec requires: `huffmanDecoder.init`
panics `"coding incomplete"` (the `const sanity = true` path), which aborts
the process.  Degenerate single-symbol codings of length 1 are indeed
accepted. -/
theorem c4_incomplete_coding_panics :
  (huffInit [1]).isOk = true ∧
  huffInit [0, 2] = InitRes.panicked "coding incomplete" ∧
  (flateRead 10 (flateNewWithSpans c4src 0 0 false) 10).2.1
    = some (Ferr.panicked "coding incomplete") := by
  exact ⟨rfl, rfl, rfl⟩


/-- C5: at every point during and after the frontier pass — that is,
after any sequence of `ReadAt` requests served by a freshly constructed
gsip reader — the collected checkpoint list, in the order checkpoints
were appended, is strictly increasing in `Out` and weakly increasing in
`In`. -/
theorem c5_checkpoint_order (src : List Nat) (reqs : List (Int × Nat)) (fuel : Nat)
    (r0 : GsipReader) (h0 : gsipNewReader src = some r0) :
    List.Pairwise ckLt (runReads fuel r0 reqs).checkpoints := by
  have h := (invg_runReads fuel reqs r0 (invg_new src r0 h0)).1
  haveI : IsTrans Checkpoint ckLt :=
    ⟨fun a b c hab hbc => ⟨lt_trans hab.1 hbc.1, le_trans hab.2 hbc.2⟩⟩
  exact List.chain'_iff_pairwise.mp h

/-- C5 witness: the checkpoint order after two concrete `ReadAt` requests
against the `tinyGz` blob. -/
theorem c5_witness :
    List.Pairwise ckLt (runReads 50 ((gsipNewReader tinyGz).getD ⟨[], [], []⟩)
      [((1 : Int), 1), ((0 : Int), 2)]).checkpoints :=
  c5_checkpoint_order tinyGz [((1 : Int), 1), ((0 : Int), 2)] 50
    ((gsipNewReader tinyGz).getD ⟨[], [], []⟩) rfl


/-- C6 (amended): `ReadAt` never over-reads; a `nil` error means the
buffer was filled exactly; when the uncompressed stream ends at or before
`off` the call returns no bytes and `EOF` (`io.ReadFull` semantics), and
`UnexpectedEof` occurs only on a genuinely short (or failed-acquire)
result. -/
theorem c6_readat_exact_or_eof (fuel : Nat) (r : GsipReader) (off : Int) (blen : Nat) :
    ((gsipReadAt fuel r off blen).2.1 = none →
      (gsipReadAt fuel r off blen).1.length = blen) ∧
    ((gsipReadAt fuel r off blen).2.1 = some Ferr.eof →
      (gsipReadAt fuel r off blen).1 = []) ∧
    ((gsipReadAt fuel r off blen).2.1 = some Ferr.unexpectedEof →
      (gsipReadAt fuel r off blen).1 = [] ∨
      (gsipReadAt fuel r off blen).1.length < blen) ∧
    (gsipReadAt fuel r off blen).1.length ≤ blen := by
  unfold gsipReadAt
  rcases h1 : acquireReader fuel r off with ⟨r1, e⟩
  rcases e with e | i <;> dsimp only
  · exact ⟨by simp, fun _ => rfl, fun _ => Or.inl rfl, by simp⟩
  · have hs := readFullG_spec (blen + 1) fuel (r1.readers.getD i dumRdr).1 blen 0
    rcases h2 : readFullG (blen + 1) fuel (r1.readers.getD i dumRdr).1 blen 0
      with ⟨out, e2, zr1⟩
    rw [h2] at hs
    dsimp only at hs ⊢
    exact ⟨hs.1, fun he => (hs.2.1 he).2, fun he => Or.inr (hs.2.2.1 he), hs.2.2.2⟩

/-- C6 counterexample: a 1-byte `ReadAt` starting exactly at the end of
`tinyGz`'s 2-byte uncompressed stream returns `EOF` with no bytes, not
`UnexpectedEof`. -/
theorem c6_eof_counterexample :
    (gsipReadAt 50 ((gsipNewReader tinyGz).getD ⟨[], [], []⟩) 2 1).2.1 = some Ferr.eof ∧
    (gsipReadAt 50 ((gsipNewReader tinyGz).getD ⟨[], [], []⟩) 2 1).1 = [] :=
  ⟨rfl, rfl⟩


/-- C3: the four-way case analysis of `acquireReader(off)`: (1) an idle
pooled decoder positioned exactly at `off` is reused as-is (zero
discard); (2) else, with an ordered checkpoint list, a `some` result of
the checkpoint scan is a member with `Out ≤ off` maximal among such
members, the resumed decoder is appended to the pool, and on success its
position is exactly `off`; (3) else an idle decoder at or before `off`
is taken and on success its position is exactly `off`; (4) else the call
fails.  In every successful case the acquired decoder stands at `off`. -/
theorem c3_acquire_cases (fuel : Nat) (r : GsipReader) (off : Int)
    (hsorted : List.Pairwise ckLt r.checkpoints) :
    (∀ i, r.readers.findIdx? (fun p => p.2 && p.1.offset == off) = some i →
      (∃ h : i < r.readers.length,
        (r.readers.get ⟨i, h⟩).2 = true ∧ (r.readers.get ⟨i, h⟩).1.offset = off) ∧
      (acquireReader fuel r off).2 = Except.ok i ∧
      (acquireReader fuel r off).1.readers.getD i dumRdr =
        ((r.readers.getD i dumRdr).1, false)) ∧
    (r.readers.findIdx? (fun p => p.2 && p.1.offset == off) = none →
      ∀ ck, highestCk r.checkpoints off = some ck →
        (ck ∈ r.checkpoints ∧ ck.Out ≤ off ∧
          ∀ c ∈ r.checkpoints, c.Out ≤ off → c.Out ≤ ck.Out) ∧
        ∀ i, (acquireReader fuel r off).2 = Except.ok i →
          i = r.readers.length ∧
          ((acquireReader fuel r off).1.readers.getD i dumRdr).1.offset = off) ∧
    (r.readers.findIdx? (fun p => p.2 && p.1.offset == off) = none →
      highestCk r.checkpoints off = none →
      ∀ i, r.readers.findIdx? (fun p => p.2 && decide (p.1.offset ≤ off)) = some i →
        (∃ h : i < r.readers.length,
          (r.readers.get ⟨i, h⟩).2 = true ∧ (r.readers.get ⟨i, h⟩).1.offset ≤ off) ∧
        ∀ j, (acquireReader fuel r off).2 = Except.ok j →
          j = i ∧
          ((acquireReader fuel r off).1.readers.getD i dumRdr).1.offset = off) ∧
    (r.readers.findIdx? (fun p => p.2 && p.1.offset == off) = none →
      highestCk r.checkpoints off = none →
      r.readers.findIdx? (fun p => p.2 && decide (p.1.offset ≤ off)) = none →
      acquireReader fuel r off =
        (r, Except.error (Ferr.generic "no checkpoints or readers"))) := by
  refine ⟨?_, ?_, ?_, ?_⟩
  · intro i hf
    obtain ⟨-, hspec⟩ := findIdx?_some_spec _ _ _ _ hf
    rw [Nat.sub_zero] at hspec
    obtain ⟨hlt, hp, -⟩ := hspec
    rw [Bool.and_eq_true] at hp
    obtain ⟨hbusy, hoff⟩ := hp
    refine ⟨⟨hlt, hbusy, eq_of_beq hoff⟩, ?_, ?_⟩
    · simp only [acquireReader, hf]
    · simp only [acquireReader, hf]
      rw [getD_eq_get _ _ _ (by simpa using hlt), List.get_eq_getElem]
      exact List.getElem_set_self (by simpa using hlt)
  · intro hf ck hck
    obtain ⟨hmem, hle, hmax⟩ := highestCk_some r.checkpoints off ck hsorted hck
    refine ⟨⟨hmem, hle, hmax⟩, ?_⟩
    intro i hok
    have hcc := copyNGo_count fuel fuel (gzipContinue r.src ck) (off - ck.Out).toNat
    simp only [acquireReader, hf, hck] at hok ⊢
    rcases hcp : copyNGo fuel fuel (gzipContinue r.src ck) (off - ck.Out).toNat
      with ⟨cnt, e2, zr1⟩
    rw [hcp] at hok hcc
    rcases e2 with _ | e2 <;> dsimp only at hok hcc ⊢
    · injection hok with hok
      subst hok
      refine ⟨rfl, ?_⟩
      obtain ⟨-, hoff2⟩ := hcc rfl
      rw [getD_eq_get _ _ _ (by simp), List.get_eq_getElem]
      rw [List.getElem_concat_length _ _ _ rfl (by simp)]
      show zr1.offset = off
      rw [hoff2]
      show ck.Out + ((off - ck.Out).toNat : Int) = off
      rw [Int.toNat_of_nonneg (by omega)]
      omega
    · exact absurd hok (by simp)
  · intro hf hc i hf2
    obtain ⟨-, hspec⟩ := findIdx?_some_spec _ _ _ _ hf2
    rw [Nat.sub_zero] at hspec
    obtain ⟨hlt, hp, -⟩ := hspec
    rw [Bool.and_eq_true] at hp
    obtain ⟨hbusy, hple⟩ := hp
    have hofle : (r.readers.get ⟨i, hlt⟩).1.offset ≤ off := of_decide_eq_true hple
    refine ⟨⟨hlt, hbusy, hofle⟩, ?_⟩
    intro j hok
    have hcc := copyNGo_count fuel fuel (r.readers.getD i dumRdr).1
      (off - (r.readers.getD i dumRdr).1.offset).toNat
    simp only [acquireReader, hf, hc, hf2] at hok ⊢
    rcases hcp : copyNGo fuel fuel (r.readers.getD i dumRdr).1
        (off - (r.readers.getD i dumRdr).1.offset).toNat with ⟨cnt, e2, zr1⟩
    rw [hcp] at hok hcc
    rcases e2 with _ | e2 <;> dsimp only at hok hcc ⊢
    · injection hok with hok
      subst hok
      refine ⟨rfl, ?_⟩
      obtain ⟨-, hoff2⟩ := hcc rfl
      rw [getD_eq_get _ _ _ (by simpa using hlt), List.get_eq_getElem]
      rw [List.getElem_set_self (by simpa using hlt)]
      show zr1.offset = off
      rw [hoff2, getD_eq_get _ _ _ hlt]
      rw [Int.toNat_of_nonneg (by omega)]
      omega
    · exact absurd hok (by simp)
  · intro hf hc hf2
    simp only [acquireReader, hf, hc, hf2]

/-- C3 witness: on a fresh reader over `tinyGz`, acquiring offset 0 hits
the idle frontier decoder exactly. -/
theorem c3_witness :
    (acquireReader 50 ((gsipNewReader tinyGz).getD ⟨[], [], []⟩) 0).2 = Except.ok 0 :=
  ((c3_acquire_cases 50 ((gsipNewReader tinyGz).getD ⟨[], [], []⟩) 0
      (List.Pairwise.cons (fun b hb => absurd hb (List.not_mem_nil b))
        List.Pairwise.nil)).1 0 rfl).2.1

end Targz
